import Mathlib

/-!
ptsim: a single-level page-table simulator.

A shallow embedding of `src/ptsim.c`.  The simulated RAM is the global array
`unsigned char mem[MEM_SIZE]`; here it is an explicit value of type `Mem` that
every operation receives and returns.  C `int`s are mathematical integers
(no operation of the program can overflow 32 bits on an in-bounds run), a byte
is a `Fin 256`, and an access outside `0 .. MEM_SIZE - 1` (undefined behaviour
in C) makes the operation return `none`.  What an operation prints is returned
as a list of `Msg`.
-/

namespace Ptsim

/-! ## Constants (`#define`s) -/

/-- The `MEM_SIZE` constant: the number of bytes of simulated RAM. -/
abbrev MEM_SIZE : Int := 16384
/-- The `PAGE_SIZE` constant: bytes per page. -/
abbrev PAGE_SIZE : Int := 256
/-- The `PAGE_COUNT` constant: the number of pages. -/
abbrev PAGE_COUNT : Int := 64
/-- The `PAGE_SHIFT` constant: a page number is shifted this much. -/
abbrev PAGE_SHIFT : Int := 8
/-- The `PTP_OFFSET` constant: where in page 0 the page-table-pointer table starts. -/
abbrev PTP_OFFSET : Int := 64

/-! ## The store -/

/-- The array `mem`: one byte per index.  Only the indices `0 .. MEM_SIZE - 1`
exist in C; every access below is bounds-checked, so the other indices are
never read or written. -/
abbrev Mem := Int → Fin 256

/-- Conversion of an `int` to `unsigned char` (reduction modulo 256). -/
def to_uchar (v : Int) : Fin 256 := ⟨(v % 256).toNat, by omega⟩

/-- The byte `mem[a]` promoted to `int`. -/
def byteAt (m : Mem) (a : Int) : Int := ((m a).val : Int)

/-- The store after the assignment `mem[a] = v`. -/
def setByte (m : Mem) (a v : Int) : Mem := Function.update m a (to_uchar v)

/-- A read of `mem[a]`: `none` when `a` is out of bounds. -/
def mem_load (m : Mem) (a : Int) : Option Int :=
  if 0 ≤ a ∧ a < MEM_SIZE then some (byteAt m a) else none

/-- The assignment `mem[a] = v`: `none` when `a` is out of bounds. -/
def mem_store (m : Mem) (a v : Int) : Option Mem :=
  if 0 ≤ a ∧ a < MEM_SIZE then some (setByte m a v) else none

/-- What the program prints. -/
inductive Msg
  /-- Printed line `failed allocation %d: page table`. -/
  | failed_page_table (proc_num : Int)
  /-- Printed line `failed allocation %d: data page %d`. -/
  | failed_data_page (proc_num i : Int)
  /-- Printed line `failed to kill %d: none`. -/
  | failed_kill (proc_num : Int)
  /-- Printed line `Store proc %d: %d => %d, value=%d`. -/
  | store (proc_num vaddr addr val : Int)
  /-- Printed line `Load proc %d: %d => %d, value=%d`. -/
  | load (proc_num vaddr addr val : Int)
  deriving DecidableEq, Repr

/-! ## The operations of `ptsim.c` -/

/-- Source `get_address`: `(page << PAGE_SHIFT) | offset`. -/
def get_address (page offset : Int) : Int := Int.lor (page <<< PAGE_SHIFT) offset

/-- Source `initialize_mem`: zero the store, then mark page 0 as allocated
(`get_address(0, 0)` is index 0, which is in bounds). -/
def initialize_mem : Mem := setByte (fun _ => 0) (get_address 0 0) 1

/-- Source `get_page_table`: the directory byte of a process. -/
def get_page_table (m : Mem) (proc_num : Int) : Option Int :=
  mem_load m (get_address 0 (PTP_OFFSET + proc_num))

/-- The `for` loop of `allocate_page`: `k` iterations are left and the loop
variable is `i`.  Falling out of the loop returns `-1`. -/
def allocate_page_loop (m : Mem) : Nat → Int → Option (Mem × Int)
  | 0, _ => some (m, -1)
  | k + 1, i => do
    let addr := get_address 0 i
    let b ← mem_load m addr
    if b = 0 then
      let m1 ← mem_store m addr 1
      pure (m1, i)
    else
      allocate_page_loop m k (i + 1)

/-- Source `allocate_page`: scan `i = 1 .. PAGE_COUNT - 1` for a zero bitmap
byte, mark it and return `i`; return `-1` when there is none. -/
def allocate_page (m : Mem) : Option (Mem × Int) :=
  allocate_page_loop m (PAGE_COUNT - 1).toNat 1

/-- The data-page `for` loop of `new_process`: `k` iterations are left and the
loop variable is `i`. -/
def new_process_loop (proc_num ptp_page : Int) : Nat → Int → Mem → Option (Mem × List Msg)
  | 0, _, m => some (m, [])
  | k + 1, i, m => do
    let (m1, page) ← allocate_page m
    if page = -1 then
      pure (m1, [Msg.failed_data_page proc_num i])
    else
      let addr := get_address ptp_page i
      let m2 ← mem_store m1 addr page
      new_process_loop proc_num ptp_page k (i + 1) m2

/-- Source `new_process`: allocate a page table, record it in the directory,
then allocate `page_count` data pages into the table. -/
def new_process (m : Mem) (proc_num page_count : Int) : Option (Mem × List Msg) := do
  let (m1, ptp_page) ← allocate_page m
  if ptp_page = -1 then
    pure (m1, [Msg.failed_page_table proc_num])
  else
    let ptp_addr := get_address 0 (PTP_OFFSET + proc_num)
    let m2 ← mem_store m1 ptp_addr ptp_page
    new_process_loop proc_num ptp_page page_count.toNat 0 m2

/-- The `for` loop of `kill_process`: `k` iterations are left and the loop
variable is `i`. -/
def kill_process_loop (ptp_page : Int) : Nat → Int → Mem → Option Mem
  | 0, _, m => some m
  | k + 1, i, m => do
    let addr := get_address ptp_page i
    let page ← mem_load m addr
    let m1 ← mem_store m addr 0
    let m2 ← if page ≠ 0 then mem_store m1 (get_address 0 page) 0 else pure m1
    kill_process_loop ptp_page k (i + 1) m2

/-- Source `kill_process`: clear the directory entry, free every page named in
the page table (zeroing the slots), then free the page-table page. -/
def kill_process (m : Mem) (proc_num : Int) : Option (Mem × List Msg) := do
  let ptp_page ← get_page_table m proc_num
  if ptp_page = 0 then
    pure (m, [Msg.failed_kill proc_num])
  else
    let ptp_addr := get_address 0 (PTP_OFFSET + proc_num)
    let m1 ← mem_store m ptp_addr 0
    let m2 ← kill_process_loop ptp_page PAGE_COUNT.toNat 0 m1
    let m3 ← mem_store m2 (get_address 0 ptp_page) 0
    pure (m3, [])

/-- Source `store_value`: translate `vaddr` through the page table of
`proc_num` and write `val` there. -/
def store_value (m : Mem) (proc_num vaddr val : Int) : Option (Mem × List Msg) := do
  let page_table ← get_page_table m proc_num
  let virtual_page := vaddr >>> PAGE_SHIFT
  let offset := Int.land vaddr (PAGE_SIZE - 1)
  let phys_page ← mem_load m (get_address page_table virtual_page)
  let addr := get_address phys_page offset
  let m1 ← mem_store m addr val
  pure (m1, [Msg.store proc_num vaddr addr val])

/-- Source `load_value`: translate `vaddr` through the page table of
`proc_num` and read the byte there. -/
def load_value (m : Mem) (proc_num vaddr : Int) : Option (Int × List Msg) := do
  let page_table ← get_page_table m proc_num
  let virtual_page := vaddr >>> PAGE_SHIFT
  let offset := Int.land vaddr (PAGE_SIZE - 1)
  let phys_page ← mem_load m (get_address page_table virtual_page)
  let addr := get_address phys_page offset
  let val ← mem_load m addr
  pure (val, [Msg.load proc_num vaddr addr val])

/-! ## Vocabulary of the specification -/

/-- The `k` consecutive page numbers `i, i + 1, …, i + k - 1`. -/
def pageRange : Nat → Int → List Int
  | 0, _ => []
  | k + 1, i => i :: pageRange k (i + 1)

/-- The free pages (bitmap byte 0) among `i, …, i + k - 1`, in ascending order. -/
def freeIn (m : Mem) (k : Nat) (i : Int) : List Int :=
  (pageRange k i).filter (fun j => decide (byteAt m j = 0))

/-- The free pages among the allocatable pages `1 .. 63`, in ascending order. -/
def freePages (m : Mem) : List Int := freeIn m 63 1

/-- The stores reachable from `initialize_mem` by `new_process` and
`kill_process` calls with process ids in `0 .. 191`. -/
inductive ProcReachable : Mem → Prop
  | init : ProcReachable initialize_mem
  | new_process (m m' : Mem) (p n : Int) (out : List Msg) : ProcReachable m → 0 ≤ p → p ≤ 191 →
      new_process m p n = some (m', out) → ProcReachable m'
  | kill_process (m m' : Mem) (p : Int) (out : List Msg) : ProcReachable m → 0 ≤ p → p ≤ 191 →
      kill_process m p = some (m', out) → ProcReachable m'

/-- The structural invariant of directory, bitmap and page tables: a nonzero
directory entry names a used page in `1 .. 63`; distinct live processes have
distinct page tables; a nonzero slot (index `0 .. 63`) of a live page table
names a used page in `1 .. 63` that is no live page table and occurs in no
other slot of a live page table; and a page with a nonzero byte among its first
64 is used and named by no slot of a live page table. -/
structure TablesInv (m : Mem) : Prop where
  dir_used : ∀ q, 0 ≤ q → q ≤ 191 → byteAt m (64 + q) ≠ 0 →
    1 ≤ byteAt m (64 + q) ∧ byteAt m (64 + q) ≤ 63 ∧ byteAt m (byteAt m (64 + q)) ≠ 0
  dir_inj : ∀ q q', 0 ≤ q → q ≤ 191 → 0 ≤ q' → q' ≤ 191 → byteAt m (64 + q) ≠ 0 →
    byteAt m (64 + q) = byteAt m (64 + q') → q = q'
  slot_used : ∀ q i, 0 ≤ q → q ≤ 191 → byteAt m (64 + q) ≠ 0 → 0 ≤ i → i < 64 →
    byteAt m (256 * byteAt m (64 + q) + i) ≠ 0 →
    1 ≤ byteAt m (256 * byteAt m (64 + q) + i) ∧ byteAt m (256 * byteAt m (64 + q) + i) ≤ 63 ∧
      byteAt m (byteAt m (256 * byteAt m (64 + q) + i)) ≠ 0 ∧
      ∀ q', 0 ≤ q' → q' ≤ 191 → byteAt m (64 + q') ≠ byteAt m (256 * byteAt m (64 + q) + i)
  slot_inj : ∀ q q' i i', 0 ≤ q → q ≤ 191 → 0 ≤ q' → q' ≤ 191 → byteAt m (64 + q) ≠ 0 →
    byteAt m (64 + q') ≠ 0 → 0 ≤ i → i < 64 → 0 ≤ i' → i' < 64 →
    byteAt m (256 * byteAt m (64 + q) + i) ≠ 0 →
    byteAt m (256 * byteAt m (64 + q) + i) = byteAt m (256 * byteAt m (64 + q') + i') →
    q = q' ∧ i = i'
  clean : ∀ g i, 1 ≤ g → g ≤ 63 → 0 ≤ i → i < 64 → byteAt m (256 * g + i) ≠ 0 →
    byteAt m g ≠ 0 ∧ ∀ q i', 0 ≤ q → q ≤ 191 → byteAt m (64 + q) ≠ 0 → 0 ≤ i' → i' < 64 →
      byteAt m (256 * byteAt m (64 + q) + i') ≠ g

/-- The pages `0 .. 63` whose bitmap byte is used (nonzero) in `m` and free (0)
in `m'`, in ascending order. -/
def pagesFreed (m m' : Mem) : List Int :=
  (pageRange 64 0).filter (fun i => decide (byteAt m i ≠ 0 ∧ byteAt m' i = 0))

/-- The indices `0 .. 63` of the nonzero slots of the page table in page `t`
(the lines `print_page_table` prints), in ascending order. -/
def mappedSlots (m : Mem) (t : Int) : List Int :=
  (pageRange 64 0).filter (fun i => decide (byteAt m (256 * t + i) ≠ 0))

/-- The stores reachable from `initialize_mem` by `allocate_page`,
`new_process`, `kill_process` and `load_value` calls and by those
`store_value` calls whose physical address (the one the call prints) is at
least 64, that is, outside the bitmap; process ids are in `0 .. 191` and every
call keeps its accesses inside the store (it returns). -/
inductive BitmapSafeReachable : Mem → Prop
  | init : BitmapSafeReachable initialize_mem
  | allocate_page (m m' : Mem) (r : Int) : BitmapSafeReachable m →
      allocate_page m = some (m', r) → BitmapSafeReachable m'
  | new_process (m m' : Mem) (p n : Int) (out : List Msg) : BitmapSafeReachable m → 0 ≤ p →
      p ≤ 191 → new_process m p n = some (m', out) → BitmapSafeReachable m'
  | kill_process (m m' : Mem) (p : Int) (out : List Msg) : BitmapSafeReachable m → 0 ≤ p →
      p ≤ 191 → kill_process m p = some (m', out) → BitmapSafeReachable m'
  | store_value (m m' : Mem) (p v x addr : Int) : BitmapSafeReachable m → 0 ≤ p → p ≤ 191 →
      store_value m p v x = some (m', [Msg.store p v addr x]) → 64 ≤ addr →
      BitmapSafeReachable m'
  | load_value (m : Mem) (p v : Int) (r : Int × List Msg) : BitmapSafeReachable m → 0 ≤ p →
      p ≤ 191 → load_value m p v = some r → BitmapSafeReachable m

/-- `ProcSteps m m'`: the store `m'` is reached from `m` by `new_process` and
`kill_process` calls with process ids in `0 .. 191`. -/
inductive ProcSteps : Mem → Mem → Prop
  | refl (m : Mem) : ProcSteps m m
  | new_process (m m' m'' : Mem) (p n : Int) (out : List Msg) : ProcSteps m m' → 0 ≤ p →
      p ≤ 191 → new_process m' p n = some (m'', out) → ProcSteps m m''
  | kill_process (m m' m'' : Mem) (p : Int) (out : List Msg) : ProcSteps m m' → 0 ≤ p →
      p ≤ 191 → kill_process m' p = some (m'', out) → ProcSteps m m''

/-- Page `g` is leaked in `m`: it is marked used, yet it is the page table of
no process and no slot `0 .. 63` of a live page table names it. -/
def Leaked (m : Mem) (g : Int) : Prop :=
  byteAt m g ≠ 0 ∧ (∀ q, 0 ≤ q → q ≤ 191 → byteAt m (64 + q) ≠ g) ∧
    ∀ q i, 0 ≤ q → q ≤ 191 → byteAt m (64 + q) ≠ 0 → 0 ≤ i → i < 64 →
      byteAt m (256 * byteAt m (64 + q) + i) ≠ g

/-! ## Arithmetic of addresses -/

theorem byteAt_nonneg (m : Mem) (a : Int) : 0 ≤ byteAt m a := by
  unfold byteAt; omega

theorem byteAt_lt (m : Mem) (a : Int) : byteAt m a < 256 := by
  unfold byteAt; omega

theorem byteAt_setByte (m : Mem) (a v b : Int) :
    byteAt (setByte m a v) b = if b = a then v % 256 else byteAt m b := by
  unfold byteAt setByte to_uchar
  by_cases h : b = a
  · subst h
    simp only [Function.update_same, if_true]
    omega
  · simp only [Function.update_noteq h, if_neg h]

theorem setByte_other (m : Mem) (a v b : Int) (h : b ≠ a) : setByte m a v b = m b := by
  unfold setByte; exact Function.update_noteq h _ _

theorem mem_ext_byteAt (m m' : Mem) (a : Int) (h : byteAt m' a = byteAt m a) : m' a = m a := by
  unfold byteAt at h
  exact Fin.ext (by omega)

theorem lor_natCast (a b : Nat) : Int.lor (a : Int) (b : Int) = ((a ||| b : Nat) : Int) := rfl

theorem land_natCast (a b : Nat) : Int.land (a : Int) (b : Int) = ((a &&& b : Nat) : Int) := rfl

theorem get_address_zero (a : Int) (h : 0 ≤ a) : get_address 0 a = a := by
  obtain ⟨n, rfl⟩ := Int.eq_ofNat_of_zero_le h
  unfold get_address
  rw [Int.zero_shiftLeft]
  have : Int.lor ((0 : Nat) : Int) (n : Int) = n := by rw [lor_natCast, Nat.zero_or]
  simpa using this

theorem get_address_eq (p o : Int) (hp : 0 ≤ p) (ho : 0 ≤ o) (ho' : o < 256) :
    get_address p o = p * 256 + o := by
  obtain ⟨a, rfl⟩ := Int.eq_ofNat_of_zero_le hp
  obtain ⟨b, rfl⟩ := Int.eq_ofNat_of_zero_le ho
  have hb : b < 2 ^ 8 := by omega
  unfold get_address PAGE_SHIFT
  have h1 : (a : Int) <<< (8 : Int) = ((a <<< 8 : Nat) : Int) := Int.shiftLeft_coe_nat a 8
  rw [h1, lor_natCast, Nat.shiftLeft_eq, Nat.mul_comm, ← Nat.mul_add_lt_is_or hb a]
  push_cast
  ring

theorem shiftRight_eq (v : Int) (hv : 0 ≤ v) : v >>> PAGE_SHIFT = v / 256 := by
  obtain ⟨a, rfl⟩ := Int.eq_ofNat_of_zero_le hv
  unfold PAGE_SHIFT
  have h1 : (a : Int) >>> (8 : Int) = ((a >>> 8 : Nat) : Int) := Int.shiftRight_coe_nat a 8
  rw [h1, Nat.shiftRight_eq_div_pow]
  norm_num

theorem land_eq (v : Int) (hv : 0 ≤ v) : Int.land v (PAGE_SIZE - 1) = v % 256 := by
  obtain ⟨a, rfl⟩ := Int.eq_ofNat_of_zero_le hv
  have h1 : (PAGE_SIZE - 1 : Int) = ((2 ^ 8 - 1 : Nat) : Int) := by norm_num
  rw [h1, land_natCast, Nat.and_pow_two_sub_one_eq_mod]
  norm_num

theorem mem_load_eq (m : Mem) (a : Int) (h0 : 0 ≤ a) (h1 : a < 16384) :
    mem_load m a = some (byteAt m a) := by
  unfold mem_load MEM_SIZE
  rw [if_pos ⟨h0, h1⟩]

theorem mem_store_eq (m : Mem) (a v : Int) (h0 : 0 ≤ a) (h1 : a < 16384) :
    mem_store m a v = some (setByte m a v) := by
  unfold mem_store MEM_SIZE
  rw [if_pos ⟨h0, h1⟩]

/-! ## The allocator -/

theorem freeIn_succ (m : Mem) (k : Nat) (i : Int) :
    freeIn m (k + 1) i =
      if byteAt m i = 0 then i :: freeIn m k (i + 1) else freeIn m k (i + 1) := by
  unfold freeIn
  by_cases h : byteAt m i = 0
  · simp [pageRange, h]
  · simp [pageRange, h]

theorem mem_freeIn (m : Mem) (f : Int) :
    ∀ (k : Nat) (i : Int), f ∈ freeIn m k i ↔ (i ≤ f ∧ f < i + k ∧ byteAt m f = 0) := by
  intro k
  induction k with
  | zero =>
    intro i
    simp only [freeIn, pageRange, List.filter_nil, List.not_mem_nil, false_iff]
    intro h
    omega
  | succ k ih =>
    intro i
    rw [freeIn_succ]
    by_cases h : byteAt m i = 0
    · rw [if_pos h, List.mem_cons, ih]
      constructor
      · rintro (rfl | ⟨h1, h2, h3⟩)
        · exact ⟨le_refl _, by omega, h⟩
        · exact ⟨by omega, by push_cast; omega, h3⟩
      · rintro ⟨h1, h2, h3⟩
        by_cases hf : f = i
        · exact Or.inl hf
        · exact Or.inr ⟨by omega, by push_cast at h2; omega, h3⟩
    · rw [if_neg h, ih]
      constructor
      · rintro ⟨h1, h2, h3⟩
        exact ⟨by omega, by push_cast; omega, h3⟩
      · rintro ⟨h1, h2, h3⟩
        have hf : f ≠ i := fun e => h (e ▸ h3)
        exact ⟨by omega, by push_cast at h2; omega, h3⟩

theorem freeIn_head (m : Mem) (f : Int) (r : List Int) :
    ∀ (k : Nat) (i : Int), freeIn m k i = f :: r →
      i ≤ f ∧ f < i + k ∧ byteAt m f = 0 ∧ (∀ j, i ≤ j → j < f → byteAt m j ≠ 0) ∧
        ∃ k', freeIn m k' (f + 1) = r ∧ f + 1 + k' = i + k := by
  intro k
  induction k with
  | zero =>
    intro i h
    simp [freeIn, pageRange] at h
  | succ k ih =>
    intro i h
    rw [freeIn_succ] at h
    by_cases h0 : byteAt m i = 0
    · rw [if_pos h0] at h
      injection h with h1 h2
      subst h1
      refine ⟨le_refl _, by omega, h0, fun j hj hj' => by omega, k, h2, by push_cast; ring⟩
    · rw [if_neg h0] at h
      obtain ⟨h1, h2, h3, h4, k', h5, h6⟩ := ih (i + 1) h
      refine ⟨by omega, by push_cast; omega, h3, ?_, k', h5, by push_cast; omega⟩
      intro j hj hj'
      by_cases e : j = i
      · rw [e]; exact h0
      · exact h4 j (by omega) hj'

theorem freeIn_setByte_outside (m : Mem) (a v : Int) :
    ∀ (k : Nat) (i : Int), (a < i ∨ i + k ≤ a) → freeIn (setByte m a v) k i = freeIn m k i := by
  intro k
  induction k with
  | zero => intro i _; rfl
  | succ k ih =>
    intro i h
    have hi : i ≠ a := by push_cast at h; omega
    rw [freeIn_succ, freeIn_succ, byteAt_setByte, if_neg hi, ih (i + 1) (by push_cast at h; omega)]

theorem freeIn_setByte_head (m : Mem) (f : Int) (r : List Int) :
    ∀ (k : Nat) (i : Int), freeIn m k i = f :: r → freeIn (setByte m f 1) k i = r := by
  intro k
  induction k with
  | zero =>
    intro i h
    simp [freeIn, pageRange] at h
  | succ k ih =>
    intro i h
    rw [freeIn_succ] at h
    rw [freeIn_succ, byteAt_setByte]
    by_cases h0 : byteAt m i = 0
    · rw [if_pos h0] at h
      injection h with h1 h2
      subst h1
      rw [if_pos rfl, if_neg (by decide), freeIn_setByte_outside m i 1 k (i + 1) (Or.inl (by omega))]
      exact h2
    · rw [if_neg h0] at h
      have hf := (freeIn_head m f r k (i + 1) h).2.2.1
      have hi : i ≠ f := fun e => h0 (e ▸ hf)
      rw [if_neg hi, if_neg h0]
      exact ih (i + 1) h

theorem allocate_page_loop_nil (m : Mem) :
    ∀ (k : Nat) (i : Int), 0 ≤ i → i + k ≤ 16384 → freeIn m k i = [] →
      allocate_page_loop m k i = some (m, -1) := by
  intro k
  induction k with
  | zero => intro i _ _ _; rfl
  | succ k ih =>
    intro i hi hk h
    rw [freeIn_succ] at h
    by_cases h0 : byteAt m i = 0
    · rw [if_pos h0] at h
      exact absurd h (List.cons_ne_nil _ _)
    · rw [if_neg h0] at h
      have := ih (i + 1) (by omega) (by push_cast at hk; omega) h
      simp only [allocate_page_loop, get_address_zero i hi,
        mem_load_eq m i hi (by push_cast at hk; omega), Option.bind_eq_bind, Option.some_bind,
        if_neg h0, this]

theorem allocate_page_loop_cons (m : Mem) (f : Int) (r : List Int) :
    ∀ (k : Nat) (i : Int), 0 ≤ i → i + k ≤ 16384 → freeIn m k i = f :: r →
      allocate_page_loop m k i = some (setByte m f 1, f) := by
  intro k
  induction k with
  | zero =>
    intro i _ _ h
    simp [freeIn, pageRange] at h
  | succ k ih =>
    intro i hi hk h
    rw [freeIn_succ] at h
    have hb : i < 16384 := by push_cast at hk; omega
    by_cases h0 : byteAt m i = 0
    · rw [if_pos h0] at h
      injection h with h1 h2
      subst h1
      simp only [allocate_page_loop, get_address_zero i hi, mem_load_eq m i hi hb,
        mem_store_eq m i 1 hi hb, Option.bind_eq_bind, Option.some_bind, if_pos h0,
        Option.pure_def]
    · rw [if_neg h0] at h
      have := ih (i + 1) (by omega) (by push_cast at hk; omega) h
      simp only [allocate_page_loop, get_address_zero i hi, mem_load_eq m i hi hb,
        Option.bind_eq_bind, Option.some_bind, if_neg h0, this]

theorem allocate_page_nil (m : Mem) (h : freePages m = []) : allocate_page m = some (m, -1) :=
  allocate_page_loop_nil m 63 1 (by decide) (by decide) h

theorem allocate_page_cons (m : Mem) (f : Int) (r : List Int) (h : freePages m = f :: r) :
    allocate_page m = some (setByte m f 1, f) :=
  allocate_page_loop_cons m f r 63 1 (by decide) (by decide) h

theorem mem_freePages (m : Mem) (f : Int) :
    f ∈ freePages m ↔ (1 ≤ f ∧ f ≤ 63 ∧ byteAt m f = 0) := by
  unfold freePages
  rw [mem_freeIn]
  constructor
  · rintro ⟨h1, h2, h3⟩
    exact ⟨h1, by push_cast at h2; omega, h3⟩
  · rintro ⟨h1, h2, h3⟩
    exact ⟨h1, by push_cast; omega, h3⟩

theorem freePages_eq_nil (m : Mem) :
    freePages m = [] ↔ ∀ i, 1 ≤ i → i ≤ 63 → byteAt m i ≠ 0 := by
  constructor
  · intro h i h1 h2 h3
    have : i ∈ freePages m := (mem_freePages m i).2 ⟨h1, h2, h3⟩
    rw [h] at this
    exact absurd this (List.not_mem_nil _)
  · intro h
    apply List.eq_nil_iff_forall_not_mem.2
    intro f hf
    obtain ⟨h1, h2, h3⟩ := (mem_freePages m f).1 hf
    exact h f h1 h2 h3

theorem freeIn_length_le (m : Mem) : ∀ (k : Nat) (i : Int), (freeIn m k i).length ≤ k := by
  intro k
  induction k with
  | zero => intro i; simp [freeIn, pageRange]
  | succ k ih =>
    intro i
    rw [freeIn_succ]
    have := ih (i + 1)
    split
    · simp only [List.length_cons]; omega
    · omega

theorem freePages_length_le (m : Mem) : (freePages m).length ≤ 63 :=
  freeIn_length_le m 63 1

theorem freePages_setByte_high (m : Mem) (a v : Int) (h : 64 ≤ a) :
    freePages (setByte m a v) = freePages m :=
  freeIn_setByte_outside m a v 63 1 (Or.inr (by push_cast; omega))

theorem freePages_setByte_head (m : Mem) (f : Int) (r : List Int) (h : freePages m = f :: r) :
    freePages (setByte m f 1) = r :=
  freeIn_setByte_head m f r 63 1 h

theorem freePages_head (m : Mem) (f : Int) (r : List Int) (h : freePages m = f :: r) :
    1 ≤ f ∧ f ≤ 63 ∧ byteAt m f = 0 ∧ ∀ j, 1 ≤ j → j < f → byteAt m j ≠ 0 := by
  obtain ⟨h1, h2, h3, h4, _⟩ := freeIn_head m f r 63 1 h
  exact ⟨h1, by push_cast at h2; omega, h3, h4⟩

theorem getD_mem (r : List Int) : ∀ (j : Nat), j < r.length → r.getD j 0 ∈ r := by
  induction r with
  | nil => intro j h; simp at h
  | cons x r ih =>
    intro j h
    cases j with
    | zero => simp
    | succ j =>
      simp only [List.getD_cons_succ, List.mem_cons]
      exact Or.inr (ih j (by simpa using h))

/-! ## Process creation -/

/-- What the data-page loop of `new_process` does from a state `m`, entered
with loop variable `i` and `k` iterations to go: it consumes the lowest free
pages in order, recording the `j`-th one in slot `i + j`, and reports a failure
exactly when the free pages run out first. -/
theorem new_process_loop_spec (p t : Int) (ht : 1 ≤ t) (ht' : t ≤ 63) :
    ∀ (k : Nat) (i : Int) (m : Mem), 0 ≤ i → i + (freePages m).length ≤ 63 →
      ∃ m', new_process_loop p t k i m =
          some (m', if k ≤ (freePages m).length then []
                    else [Msg.failed_data_page p (i + (freePages m).length)]) ∧
        freePages m' = (freePages m).drop k ∧
        (∀ j : Nat, j < k → j < (freePages m).length →
          byteAt m' (256 * t + i + j) = (freePages m).getD j 0 ∧
          byteAt m' ((freePages m).getD j 0) = 1) ∧
        (∀ a, (∀ j : Nat, j < k → j < (freePages m).length →
          a ≠ 256 * t + i + j ∧ a ≠ (freePages m).getD j 0) → m' a = m a) := by
  intro k
  induction k with
  | zero =>
    intro i m _ _
    exact ⟨m, by simp [new_process_loop], by simp, fun j hj => absurd hj (Nat.not_lt_zero _),
      fun a _ => rfl⟩
  | succ k ih =>
    intro i m hi hlen
    cases hF : freePages m with
    | nil =>
      refine ⟨m, ?_, by simp [hF], fun j _ hj => absurd hj (by simp), fun a _ => rfl⟩
      simp [new_process_loop, allocate_page_nil m hF]
    | cons f r =>
      rw [hF] at hlen
      simp only [List.length_cons] at hlen
      obtain ⟨hf1, hf2, hf3, _⟩ := freePages_head m f r hF
      have haddr : get_address t i = 256 * t + i := by
        rw [get_address_eq t i (by omega) hi (by omega)]; omega
      have hfr2 : freePages (setByte (setByte m f 1) (256 * t + i) f) = r := by
        rw [freePages_setByte_high _ _ _ (by omega), freePages_setByte_head m f r hF]
      obtain ⟨m', h1, h2, h3, h4⟩ :=
        ih (i + 1) (setByte (setByte m f 1) (256 * t + i) f) (by omega)
          (by rw [hfr2]; push_cast at hlen ⊢; omega)
      rw [hfr2] at h1 h2 h3 h4
      have hrmem : ∀ j : Nat, j < r.length → 1 ≤ r.getD j 0 ∧ r.getD j 0 ≤ 63 ∧ r.getD j 0 ≠ f := by
        intro j hj
        have hm := (mem_freePages (setByte (setByte m f 1) (256 * t + i) f) (r.getD j 0)).1
          (by rw [hfr2]; exact getD_mem r j hj)
        refine ⟨hm.1, hm.2.1, ?_⟩
        intro e
        have h0 := hm.2.2
        rw [e, byteAt_setByte, if_neg (by omega), byteAt_setByte, if_pos rfl] at h0
        omega
      have hkeep : ∀ a, a = f ∨ a = 256 * t + i →
          m' a = setByte (setByte m f 1) (256 * t + i) f a := by
        intro a ha
        apply h4
        intro j _ hj
        have := hrmem j hj
        rcases ha with rfl | rfl <;> constructor <;> omega
      refine ⟨m', ?_, ?_, ?_, ?_⟩
      · have hm : (-1 : Int) ≠ f := by omega
        simp only [new_process_loop, allocate_page_cons m f r hF, Option.bind_eq_bind,
          Option.some_bind, haddr,
          mem_store_eq _ (256 * t + i) f (by omega) (by omega), h1, List.length_cons]
        rw [if_neg (by omega)]
        by_cases hk : k ≤ r.length
        · rw [if_pos hk, if_pos (by omega)]
        · rw [if_neg hk, if_neg (by omega)]
          have e : i + 1 + (r.length : Int) = i + ((r.length + 1 : Nat) : Int) := by
            push_cast; omega
          rw [e]
      · rw [h2]; simp
      · intro j hj hjl
        cases j with
        | zero =>
          simp only [List.getD_cons_zero, Nat.cast_zero, add_zero]
          constructor
          · have := hkeep (256 * t + i) (Or.inr rfl)
            unfold byteAt
            rw [this]
            have h5 := byteAt_setByte (setByte m f 1) (256 * t + i) f (256 * t + i)
            unfold byteAt at h5
            rw [h5, if_pos rfl]
            omega
          · have := hkeep f (Or.inl rfl)
            unfold byteAt
            rw [this]
            have h5 := byteAt_setByte (setByte m f 1) (256 * t + i) f f
            have h6 := byteAt_setByte m f 1 f
            unfold byteAt at h5 h6
            rw [h5, if_neg (by omega), h6, if_pos rfl]
            rfl
        | succ j =>
          simp only [List.getD_cons_succ]
          have := h3 j (by omega) (by simpa using hjl)
          have e : 256 * t + (i + 1) + (j : Int) = 256 * t + i + ((j + 1 : Nat) : Int) := by
            push_cast; omega
          rw [e] at this
          exact this
      · intro a ha
        have h0 := ha 0 (by omega) (by simp)
        simp only [List.getD_cons_zero, Nat.cast_zero, add_zero] at h0
        rw [h4 a, setByte_other _ _ _ _ h0.1, setByte_other _ _ _ _ h0.2]
        intro j hj hjl
        have := ha (j + 1) (by omega) (by simpa using hjl)
        simp only [List.getD_cons_succ] at this
        refine ⟨?_, this.2⟩
        have h7 := this.1
        push_cast at h7
        omega

/-- What `new_process` does when at least one page is free: the lowest free
page `f` becomes the page table, the following free pages become the data
pages in order, and a failure is reported exactly when they run out. -/
theorem new_process_cons (m : Mem) (p n f : Int) (r : List Int) (hp0 : 0 ≤ p) (hp1 : p ≤ 191)
    (hF : freePages m = f :: r) :
    ∃ m', new_process m p n =
        some (m', if n.toNat ≤ r.length then [] else [Msg.failed_data_page p r.length]) ∧
      freePages m' = r.drop n.toNat ∧
      byteAt m' (64 + p) = f ∧ byteAt m' f = 1 ∧
      (∀ j : Nat, j < n.toNat → j < r.length →
        byteAt m' (256 * f + j) = r.getD j 0 ∧ byteAt m' (r.getD j 0) = 1) ∧
      (∀ a, a ≠ 64 + p → a ≠ f →
        (∀ j : Nat, j < n.toNat → j < r.length → a ≠ 256 * f + j ∧ a ≠ r.getD j 0) →
          m' a = m a) := by
  obtain ⟨hf1, hf2, hf3, _⟩ := freePages_head m f r hF
  have hlen := freePages_length_le m
  rw [hF] at hlen
  simp only [List.length_cons] at hlen
  have hfr2 : freePages (setByte (setByte m f 1) (64 + p) f) = r := by
    rw [freePages_setByte_high _ _ _ (by omega), freePages_setByte_head m f r hF]
  obtain ⟨m', h1, h2, h3, h4⟩ := new_process_loop_spec p f hf1 hf2 n.toNat 0
    (setByte (setByte m f 1) (64 + p) f) (le_refl _) (by rw [hfr2]; omega)
  rw [hfr2] at h1 h2 h3 h4
  have hrmem : ∀ j : Nat, j < r.length → 1 ≤ r.getD j 0 ∧ r.getD j 0 ≤ 63 ∧ r.getD j 0 ≠ f := by
    intro j hj
    have hm := (mem_freePages (setByte (setByte m f 1) (64 + p) f) (r.getD j 0)).1
      (by rw [hfr2]; exact getD_mem r j hj)
    refine ⟨hm.1, hm.2.1, ?_⟩
    intro e
    have h0 := hm.2.2
    rw [e, byteAt_setByte, if_neg (by omega), byteAt_setByte, if_pos rfl] at h0
    omega
  have hkeep : ∀ a, a = f ∨ a = 64 + p →
      m' a = setByte (setByte m f 1) (64 + p) f a := by
    intro a ha
    apply h4
    intro j _ hj
    have := hrmem j hj
    rcases ha with rfl | rfl <;> constructor <;> omega
  have hadd : ∀ j : Int, 256 * f + 0 + j = 256 * f + j := fun j => by omega
  simp only [hadd, zero_add] at h1 h3 h4
  refine ⟨m', ?_, h2, ?_, ?_, h3, ?_⟩
  · have hm : (-1 : Int) ≠ f := by omega
    have hga : get_address 0 (PTP_OFFSET + p) = 64 + p :=
      get_address_zero (64 + p) (by omega)
    simp only [new_process, allocate_page_cons m f r hF, Option.bind_eq_bind,
      Option.some_bind, hga, mem_store_eq _ (64 + p) f (by omega) (by omega), h1]
    rw [if_neg (by omega)]
  · have := hkeep (64 + p) (Or.inr rfl)
    unfold byteAt
    rw [this]
    have h5 := byteAt_setByte (setByte m f 1) (64 + p) f (64 + p)
    unfold byteAt at h5
    rw [h5, if_pos rfl]
    omega
  · have := hkeep f (Or.inl rfl)
    unfold byteAt
    rw [this]
    have h5 := byteAt_setByte (setByte m f 1) (64 + p) f f
    have h6 := byteAt_setByte m f 1 f
    unfold byteAt at h5 h6
    rw [h5, if_neg (by omega), h6, if_pos rfl]
    rfl
  · intro a ha1 ha2 ha3
    rw [h4 a ha3, setByte_other _ _ _ _ ha1, setByte_other _ _ _ _ ha2]

/-! ## Process destruction -/

theorem get_address_slot (t i : Int) (ht : 0 ≤ t) (hi : 0 ≤ i) (hi' : i < 256) :
    get_address t i = 256 * t + i := by
  rw [get_address_eq t i ht hi hi']; omega

/-- What the loop of `kill_process` does from a state `m`, entered with loop
variable `i` and `k` iterations to go, on a page table `t` in `1 .. 63`: it
zeroes the slots `i .. i + k - 1` and the page-0 byte `mem[q]` of every nonzero
`q` one of them held, and nothing else. -/
theorem kill_process_loop_spec (t : Int) (ht : 1 ≤ t) (ht' : t ≤ 63) :
    ∀ (k : Nat) (i : Int) (m : Mem), 0 ≤ i → i + k ≤ 64 →
      ∃ m', kill_process_loop t k i m = some m' ∧
        ∀ a, ((∃ j, i ≤ j ∧ j < i + k ∧ (a = 256 * t + j ∨
                (byteAt m (256 * t + j) ≠ 0 ∧ a = byteAt m (256 * t + j)))) →
              byteAt m' a = 0) ∧
             ((¬ ∃ j, i ≤ j ∧ j < i + k ∧ (a = 256 * t + j ∨
                (byteAt m (256 * t + j) ≠ 0 ∧ a = byteAt m (256 * t + j)))) →
              m' a = m a) := by
  intro k
  induction k with
  | zero =>
    intro i m _ _
    refine ⟨m, rfl, fun a => ⟨?_, fun _ => rfl⟩⟩
    rintro ⟨j, h1, h2, _⟩
    simp only [Nat.cast_zero, add_zero] at h2
    omega
  | succ k ih =>
    intro i m hi hk
    push_cast at hk
    have hq0 := byteAt_nonneg m (256 * t + i)
    have hq1 := byteAt_lt m (256 * t + i)
    -- the store after one iteration of the body
    obtain ⟨m2, hm2, hm2z, hm2o⟩ : ∃ m2 : Mem,
        (if byteAt m (256 * t + i) ≠ 0 then
            mem_store (setByte m (256 * t + i) 0) (get_address 0 (byteAt m (256 * t + i))) 0
          else pure (setByte m (256 * t + i) 0)) = some m2 ∧
        (∀ a, (a = 256 * t + i ∨ (byteAt m (256 * t + i) ≠ 0 ∧ a = byteAt m (256 * t + i))) →
          byteAt m2 a = 0) ∧
        (∀ a, a ≠ 256 * t + i → ¬ (byteAt m (256 * t + i) ≠ 0 ∧ a = byteAt m (256 * t + i)) →
          m2 a = m a) := by
      by_cases hq : byteAt m (256 * t + i) = 0
      · refine ⟨setByte m (256 * t + i) 0, by simp [hq], ?_, ?_⟩
        · rintro a (rfl | ⟨h, _⟩)
          · rw [byteAt_setByte, if_pos rfl]; rfl
          · exact absurd hq h
        · intro a h1 _
          exact setByte_other _ _ _ _ h1
      · refine ⟨setByte (setByte m (256 * t + i) 0) (byteAt m (256 * t + i)) 0, ?_, ?_, ?_⟩
        · rw [if_pos hq, get_address_zero _ hq0, mem_store_eq _ _ _ hq0 (by omega)]
        · rintro a (rfl | ⟨_, rfl⟩)
          · rw [byteAt_setByte, if_neg (by omega), byteAt_setByte, if_pos rfl]; rfl
          · rw [byteAt_setByte, if_pos rfl]; rfl
        · intro a h1 h2
          have h3 : a ≠ byteAt m (256 * t + i) := fun e => h2 ⟨hq, e⟩
          rw [setByte_other _ _ _ _ h3, setByte_other _ _ _ _ h1]
    obtain ⟨m', h1, h2⟩ := ih (i + 1) m2 (by omega) (by omega)
    have hslot : ∀ j, i + 1 ≤ j → byteAt m2 (256 * t + j) = byteAt m (256 * t + j) := by
      intro j hj
      unfold byteAt
      rw [hm2o (256 * t + j) (by omega) (by rintro ⟨_, e⟩; omega)]
    refine ⟨m', ?_, fun a => ⟨?_, ?_⟩⟩
    · simp only [kill_process_loop, get_address_slot t i (by omega) hi (by omega),
        mem_load_eq m (256 * t + i) (by omega) (by omega),
        mem_store_eq m (256 * t + i) 0 (by omega) (by omega), Option.bind_eq_bind,
        Option.some_bind]
      have h3 := congrArg (fun o => Option.bind o (fun y => kill_process_loop t k (i + 1) y)) hm2
      simp only [Option.some_bind, h1] at h3
      rw [← h3]
      split <;> rfl
    · rintro ⟨j, hj1, hj2, hj3⟩
      push_cast at hj2
      by_cases hj : j = i
      · subst hj
        by_cases hlater : ∃ j', j + 1 ≤ j' ∧ j' < j + 1 + k ∧ (a = 256 * t + j' ∨
            (byteAt m2 (256 * t + j') ≠ 0 ∧ a = byteAt m2 (256 * t + j')))
        · exact (h2 a).1 hlater
        · unfold byteAt
          rw [(h2 a).2 hlater]
          exact hm2z a hj3
      · apply (h2 a).1
        refine ⟨j, by omega, by omega, ?_⟩
        rw [hslot j (by omega)]
        exact hj3
    · intro hno
      have hno' : ¬ ∃ j', i + 1 ≤ j' ∧ j' < i + 1 + k ∧ (a = 256 * t + j' ∨
          (byteAt m2 (256 * t + j') ≠ 0 ∧ a = byteAt m2 (256 * t + j'))) := by
        rintro ⟨j, hj1, hj2, hj3⟩
        rw [hslot j hj1] at hj3
        exact hno ⟨j, by omega, by push_cast; omega, hj3⟩
      rw [(h2 a).2 hno']
      apply hm2o
      · intro e
        exact hno ⟨i, le_refl _, by push_cast; omega, Or.inl e⟩
      · intro e
        exact hno ⟨i, le_refl _, by push_cast; omega, Or.inr e⟩

/-- What `kill_process` does on a process whose directory entry `t` is in
`1 .. 63`. -/
theorem kill_process_spec (m : Mem) (p t : Int) (hp0 : 0 ≤ p) (hp1 : p ≤ 191)
    (ht : byteAt m (64 + p) = t) (ht0 : 1 ≤ t) (ht1 : t ≤ 63) :
    ∃ m', kill_process m p = some (m', []) ∧
      ∀ a, ((a = 64 + p ∨ a = t ∨ ∃ i, 0 ≤ i ∧ i < 64 ∧ (a = 256 * t + i ∨
              (byteAt m (256 * t + i) ≠ 0 ∧ a = byteAt m (256 * t + i)))) →
            byteAt m' a = 0) ∧
           ((¬ (a = 64 + p ∨ a = t ∨ ∃ i, 0 ≤ i ∧ i < 64 ∧ (a = 256 * t + i ∨
              (byteAt m (256 * t + i) ≠ 0 ∧ a = byteAt m (256 * t + i))))) →
            m' a = m a) := by
  obtain ⟨m2, h1, h2⟩ := kill_process_loop_spec t ht0 ht1 64 0 (setByte m (64 + p) 0)
    (le_refl _) (by decide)
  have hslot : ∀ j, 0 ≤ j → byteAt (setByte m (64 + p) 0) (256 * t + j) = byteAt m (256 * t + j) := by
    intro j hj
    rw [byteAt_setByte, if_neg (by omega)]
  have hiff : ∀ a, (∃ j, (0 : Int) ≤ j ∧ j < 0 + (64 : Nat) ∧ (a = 256 * t + j ∨
        (byteAt (setByte m (64 + p) 0) (256 * t + j) ≠ 0 ∧
          a = byteAt (setByte m (64 + p) 0) (256 * t + j)))) ↔
      ∃ i, 0 ≤ i ∧ i < 64 ∧ (a = 256 * t + i ∨
        (byteAt m (256 * t + i) ≠ 0 ∧ a = byteAt m (256 * t + i))) := by
    intro a
    constructor
    · rintro ⟨j, hj1, hj2, hj3⟩
      rw [hslot j hj1] at hj3
      exact ⟨j, hj1, by push_cast at hj2; omega, hj3⟩
    · rintro ⟨j, hj1, hj2, hj3⟩
      refine ⟨j, hj1, by push_cast; omega, ?_⟩
      rw [hslot j hj1]
      exact hj3
  simp only [hiff] at h2
  have hga : get_address 0 (PTP_OFFSET + p) = 64 + p := get_address_zero (64 + p) (by omega)
  refine ⟨setByte m2 t 0, ?_, fun a => ⟨?_, ?_⟩⟩
  · have hne : t ≠ 0 := by omega
    have hpc : PAGE_COUNT.toNat = 64 := rfl
    simp only [kill_process, get_page_table, hga, mem_load_eq m (64 + p) (by omega) (by omega),
      ht, Option.bind_eq_bind, Option.some_bind, if_neg hne,
      mem_store_eq m (64 + p) 0 (by omega) (by omega), hpc, h1, get_address_zero t (by omega),
      mem_store_eq m2 t 0 (by omega) (by omega), Option.pure_def]
  · intro hz
    rw [byteAt_setByte]
    by_cases e1 : a = t
    · rw [if_pos e1]; rfl
    · rw [if_neg e1]
      by_cases hex : ∃ i, 0 ≤ i ∧ i < 64 ∧ (a = 256 * t + i ∨
          (byteAt m (256 * t + i) ≠ 0 ∧ a = byteAt m (256 * t + i)))
      · exact (h2 a).1 hex
      · unfold byteAt
        rw [(h2 a).2 hex]
        have e2 : a = 64 + p := by
          rcases hz with h | h | h
          · exact h
          · exact absurd h e1
          · exact absurd h hex
        have h5 := byteAt_setByte m (64 + p) 0 a
        unfold byteAt at h5
        rw [h5, if_pos e2]
        rfl
  · intro hz
    have e1 : a ≠ t := fun e => hz (Or.inr (Or.inl e))
    have e2 : a ≠ 64 + p := fun e => hz (Or.inl e)
    rw [setByte_other _ _ _ _ e1, (h2 a).2 (fun h => hz (Or.inr (Or.inr h))),
      setByte_other _ _ _ _ e2]

/-! ## Translation, store and load -/

theorem get_address_nonneg (t i : Int) (ht : 0 ≤ t) (hi : 0 ≤ i) : 0 ≤ get_address t i := by
  obtain ⟨a, rfl⟩ := Int.eq_ofNat_of_zero_le ht
  obtain ⟨b, rfl⟩ := Int.eq_ofNat_of_zero_le hi
  unfold get_address PAGE_SHIFT
  have h1 : (a : Int) <<< (8 : Int) = ((a <<< 8 : Nat) : Int) := Int.shiftLeft_coe_nat a 8
  rw [h1, lor_natCast]
  exact Int.ofNat_nonneg _

/-- What `store_value` does when both of its accesses are in bounds. -/
theorem store_value_spec (m : Mem) (p v x : Int) (hp0 : 0 ≤ p) (hp1 : p ≤ 191) (hv : 0 ≤ v)
    (hs : get_address (byteAt m (64 + p)) (v / 256) < 16384)
    (hph : 256 * byteAt m (get_address (byteAt m (64 + p)) (v / 256)) + v % 256 < 16384) :
    store_value m p v x =
      some (setByte m (256 * byteAt m (get_address (byteAt m (64 + p)) (v / 256)) + v % 256) x,
        [Msg.store p v (256 * byteAt m (get_address (byteAt m (64 + p)) (v / 256)) + v % 256) x]) := by
  have hga : get_address 0 (PTP_OFFSET + p) = 64 + p := get_address_zero (64 + p) (by omega)
  have hs0 := get_address_nonneg (byteAt m (64 + p)) (v / 256) (byteAt_nonneg _ _) (by omega)
  have hb0 := byteAt_nonneg m (get_address (byteAt m (64 + p)) (v / 256))
  have hph' : get_address (byteAt m (get_address (byteAt m (64 + p)) (v / 256))) (v % 256) =
      256 * byteAt m (get_address (byteAt m (64 + p)) (v / 256)) + v % 256 :=
    get_address_slot _ _ hb0 (by omega) (by omega)
  simp only [store_value, get_page_table, hga, mem_load_eq m (64 + p) (by omega) (by omega),
    shiftRight_eq v hv, land_eq v hv, Option.bind_eq_bind, Option.some_bind,
    mem_load_eq m _ hs0 hs, hph', mem_store_eq m _ x (by omega) hph, Option.pure_def]

/-- What `load_value` does when both of its accesses are in bounds. -/
theorem load_value_spec (m : Mem) (p v : Int) (hp0 : 0 ≤ p) (hp1 : p ≤ 191) (hv : 0 ≤ v)
    (hs : get_address (byteAt m (64 + p)) (v / 256) < 16384)
    (hph : 256 * byteAt m (get_address (byteAt m (64 + p)) (v / 256)) + v % 256 < 16384) :
    load_value m p v =
      some (byteAt m (256 * byteAt m (get_address (byteAt m (64 + p)) (v / 256)) + v % 256),
        [Msg.load p v (256 * byteAt m (get_address (byteAt m (64 + p)) (v / 256)) + v % 256)
          (byteAt m (256 * byteAt m (get_address (byteAt m (64 + p)) (v / 256)) + v % 256))]) := by
  have hga : get_address 0 (PTP_OFFSET + p) = 64 + p := get_address_zero (64 + p) (by omega)
  have hs0 := get_address_nonneg (byteAt m (64 + p)) (v / 256) (byteAt_nonneg _ _) (by omega)
  have hb0 := byteAt_nonneg m (get_address (byteAt m (64 + p)) (v / 256))
  have hph' : get_address (byteAt m (get_address (byteAt m (64 + p)) (v / 256))) (v % 256) =
      256 * byteAt m (get_address (byteAt m (64 + p)) (v / 256)) + v % 256 :=
    get_address_slot _ _ hb0 (by omega) (by omega)
  simp only [load_value, get_page_table, hga, mem_load_eq m (64 + p) (by omega) (by omega),
    shiftRight_eq v hv, land_eq v hv, Option.bind_eq_bind, Option.some_bind,
    mem_load_eq m _ hs0 hs, hph', mem_load_eq m _ (by omega) hph, Option.pure_def]

theorem new_process_nil (m : Mem) (p n : Int) (hF : freePages m = []) :
    new_process m p n = some (m, [Msg.failed_page_table p]) := by
  simp [new_process, allocate_page_nil m hF]

theorem kill_process_zero (m : Mem) (p : Int) (hp0 : 0 ≤ p) (hp1 : p ≤ 191)
    (h : byteAt m (64 + p) = 0) : kill_process m p = some (m, [Msg.failed_kill p]) := by
  have hga : get_address 0 (PTP_OFFSET + p) = 64 + p := get_address_zero (64 + p) (by omega)
  simp [kill_process, get_page_table, hga, mem_load_eq m (64 + p) (by omega) (by omega), h]

/-- The members of the tail of the free list are allocatable, free and differ
from the head. -/
theorem freePages_tail_mem (m : Mem) (f : Int) (r : List Int) (hF : freePages m = f :: r) :
    ∀ j : Nat, j < r.length →
      1 ≤ r.getD j 0 ∧ r.getD j 0 ≤ 63 ∧ byteAt m (r.getD j 0) = 0 ∧ r.getD j 0 ≠ f := by
  intro j hj
  have hm := (mem_freePages (setByte m f 1) (r.getD j 0)).1
    (by rw [freePages_setByte_head m f r hF]; exact getD_mem r j hj)
  have hne : r.getD j 0 ≠ f := by
    intro e
    have h0 := hm.2.2
    rw [e, byteAt_setByte, if_pos rfl] at h0
    omega
  have h0 := hm.2.2
  rw [byteAt_setByte, if_neg hne] at h0
  exact ⟨hm.1, hm.2.1, h0, hne⟩

/-- After `new_process` on a store whose lowest free page `f` has clean slots,
slot `i` of the new page table holds the `i`-th further free page when that
page was allocated, and 0 otherwise. -/
theorem new_process_slots (m m' : Mem) (p f : Int) (r : List Int) (N : Nat)
    (hp1 : p ≤ 191) (hf1 : 1 ≤ f) (hF : freePages m = f :: r)
    (hclean : ∀ i, 0 ≤ i → i < 64 → byteAt m (256 * f + i) = 0)
    (h5 : ∀ j : Nat, j < N → j < r.length →
        byteAt m' (256 * f + j) = r.getD j 0 ∧ byteAt m' (r.getD j 0) = 1)
    (h6 : ∀ a, a ≠ 64 + p → a ≠ f →
        (∀ j : Nat, j < N → j < r.length → a ≠ 256 * f + j ∧ a ≠ r.getD j 0) → m' a = m a) :
    ∀ i, 0 ≤ i → i < 64 → byteAt m' (256 * f + i) =
      if i.toNat < N ∧ i.toNat < r.length then r.getD i.toNat 0 else 0 := by
  intro i hi0 hi1
  by_cases hc : i.toNat < N ∧ i.toNat < r.length
  · rw [if_pos hc]
    have := (h5 i.toNat hc.1 hc.2).1
    rw [Int.toNat_of_nonneg hi0] at this
    exact this
  · rw [if_neg hc, ← hclean i hi0 hi1]
    unfold byteAt
    rw [h6 (256 * f + i) (by omega) (by omega)]
    intro j hj1 hj2
    have := freePages_tail_mem m f r hF j hj2
    constructor
    · intro e
      apply hc
      have : i.toNat = j := by omega
      rw [this]
      exact ⟨hj1, hj2⟩
    · omega

/-! ## The effect of creation and destruction on directory, bitmap and tables -/

theorem freeIn_pairwise (m : Mem) :
    ∀ (k : Nat) (i : Int), List.Pairwise (fun a b => a < b) (freeIn m k i) := by
  intro k
  induction k with
  | zero => intro i; simp [freeIn, pageRange]
  | succ k ih =>
    intro i
    rw [freeIn_succ]
    split
    · rw [List.pairwise_cons]
      refine ⟨?_, ih (i + 1)⟩
      intro b hb
      have := ((mem_freeIn m b k (i + 1)).1 hb).1
      omega
    · exact ih (i + 1)

theorem freePages_tail_inj (m : Mem) (f : Int) (r : List Int) (hF : freePages m = f :: r) :
    ∀ i j : Nat, i < r.length → j < r.length → r.getD i 0 = r.getD j 0 → i = j := by
  have hp : List.Pairwise (fun a b => a < b) (f :: r) := by
    rw [← hF]; exact freeIn_pairwise m 63 1
  have hr := (List.pairwise_cons.1 hp).2
  rw [List.pairwise_iff_getElem] at hr
  intro i j hi hj h
  rw [List.getD_eq_getElem r 0 hi, List.getD_eq_getElem r 0 hj] at h
  by_contra hne
  rcases Nat.lt_or_gt_of_ne hne with hlt | hgt
  · have := hr i j hi hj hlt
    omega
  · have := hr j i hj hi hgt
    omega

/-- The effect of `new_process(p, n)` on directory, bitmap and page tables
when the lowest free page `f` has clean slots.  `D` is the set of data pages
that were allocated. -/
theorem new_process_view (m : Mem) (p n f : Int) (r : List Int) (hp0 : 0 ≤ p) (hp1 : p ≤ 191)
    (hF : freePages m = f :: r)
    (hclean : ∀ i, 0 ≤ i → i < 64 → byteAt m (256 * f + i) = 0) :
    ∃ (m' : Mem) (out : List Msg) (D : Int → Prop), new_process m p n = some (m', out) ∧
      (∀ g, D g → 1 ≤ g ∧ g ≤ 63 ∧ byteAt m g = 0 ∧ g ≠ f) ∧
      (∀ q, 0 ≤ q → q ≤ 191 → byteAt m' (64 + q) = if q = p then f else byteAt m (64 + q)) ∧
      (∀ g, 1 ≤ g → g ≤ 63 → ((g = f ∨ D g) → byteAt m' g = 1) ∧
        (¬ (g = f ∨ D g) → byteAt m' g = byteAt m g)) ∧
      (∀ g i, 1 ≤ g → g ≤ 63 → g ≠ f → 0 ≤ i → i < 64 →
        byteAt m' (256 * g + i) = byteAt m (256 * g + i)) ∧
      (∀ i, 0 ≤ i → i < 64 → byteAt m' (256 * f + i) ≠ 0 → D (byteAt m' (256 * f + i))) ∧
      (∀ i i', 0 ≤ i → i < 64 → 0 ≤ i' → i' < 64 → byteAt m' (256 * f + i) ≠ 0 →
        byteAt m' (256 * f + i) = byteAt m' (256 * f + i') → i = i') := by
  obtain ⟨hf1, hf2, hf3, _⟩ := freePages_head m f r hF
  obtain ⟨m', h1, _, h3, h4, h5, h6⟩ := new_process_cons m p n f r hp0 hp1 hF
  have hsl := new_process_slots m m' p f r n.toNat hp1 hf1 hF hclean h5 h6
  have hr := freePages_tail_mem m f r hF
  have hinj := freePages_tail_inj m f r hF
  have hlen := freePages_length_le m
  rw [hF] at hlen
  simp only [List.length_cons] at hlen
  refine ⟨m', _, fun g => ∃ j : Nat, j < n.toNat ∧ j < r.length ∧ g = r.getD j 0, h1,
    ?_, ?_, ?_, ?_, ?_, ?_⟩
  · rintro g ⟨j, _, hj, rfl⟩
    exact hr j hj
  · intro q hq0 hq1
    by_cases e : q = p
    · rw [if_pos e, e]; exact h3
    · rw [if_neg e]
      unfold byteAt
      rw [h6 (64 + q) (by omega) (by omega)]
      intro j _ hj
      have := hr j hj
      constructor <;> omega
  · intro g hg0 hg1
    constructor
    · rintro (rfl | ⟨j, hj1, hj2, rfl⟩)
      · exact h4
      · exact (h5 j hj1 hj2).2
    · intro hno
      unfold byteAt
      rw [h6 g (by omega) (fun e => hno (Or.inl e))]
      intro j hj1 hj2
      exact ⟨by omega, fun e => hno (Or.inr ⟨j, hj1, hj2, e⟩)⟩
  · intro g i hg0 hg1 hgf hi0 hi1
    unfold byteAt
    rw [h6 (256 * g + i) (by omega) (by omega)]
    intro j _ hj
    have := hr j hj
    constructor <;> omega
  · intro i hi0 hi1 hne
    rw [hsl i hi0 hi1] at hne ⊢
    by_cases hc : i.toNat < n.toNat ∧ i.toNat < r.length
    · rw [if_pos hc]
      exact ⟨i.toNat, hc.1, hc.2, rfl⟩
    · rw [if_neg hc] at hne
      exact absurd rfl hne
  · intro i i' hi0 hi1 hi0' hi1' hne he
    rw [hsl i hi0 hi1] at hne he
    rw [hsl i' hi0' hi1'] at he
    by_cases hc : i.toNat < n.toNat ∧ i.toNat < r.length
    · rw [if_pos hc] at hne he
      by_cases hc' : i'.toNat < n.toNat ∧ i'.toNat < r.length
      · rw [if_pos hc'] at he
        have := hinj _ _ hc.2 hc'.2 he
        omega
      · rw [if_neg hc'] at he
        exact absurd he hne
    · rw [if_neg hc] at hne
      exact absurd rfl hne

/-- The effect of `kill_process(p)` on directory, bitmap and page tables when
the directory entry `t` of `p` is in `1 .. 63` and every slot of page `t` holds
a value of at most 63. -/
theorem kill_process_view (m : Mem) (p t : Int) (hp0 : 0 ≤ p) (hp1 : p ≤ 191)
    (ht : byteAt m (64 + p) = t) (ht0 : 1 ≤ t) (ht1 : t ≤ 63)
    (hs : ∀ i, 0 ≤ i → i < 64 → byteAt m (256 * t + i) ≤ 63) :
    ∃ (m' : Mem) (out : List Msg), kill_process m p = some (m', out) ∧
      (∀ q, 0 ≤ q → q ≤ 191 → byteAt m' (64 + q) = if q = p then 0 else byteAt m (64 + q)) ∧
      (∀ g, 1 ≤ g → g ≤ 63 →
        ((g = t ∨ ∃ i, 0 ≤ i ∧ i < 64 ∧ byteAt m (256 * t + i) = g) → byteAt m' g = 0) ∧
        (¬ (g = t ∨ ∃ i, 0 ≤ i ∧ i < 64 ∧ byteAt m (256 * t + i) = g) →
          byteAt m' g = byteAt m g)) ∧
      (∀ g i, 1 ≤ g → g ≤ 63 → 0 ≤ i → i < 64 →
        byteAt m' (256 * g + i) = if g = t then 0 else byteAt m (256 * g + i)) := by
  obtain ⟨m', k1, k2⟩ := kill_process_spec m p t hp0 hp1 ht ht0 ht1
  refine ⟨m', _, k1, ?_, ?_, ?_⟩
  · intro q hq0 hq1
    by_cases e : q = p
    · rw [if_pos e, e]
      exact (k2 (64 + p)).1 (Or.inl rfl)
    · rw [if_neg e]
      unfold byteAt
      rw [(k2 (64 + q)).2]
      rintro (h | h | ⟨i, hi0, hi1, h | ⟨_, h⟩⟩)
      · omega
      · omega
      · omega
      · have := hs i hi0 hi1
        omega
  · intro g hg0 hg1
    constructor
    · rintro (h | ⟨i, hi0, hi1, h⟩)
      · exact (k2 g).1 (Or.inr (Or.inl h))
      · exact (k2 g).1 (Or.inr (Or.inr ⟨i, hi0, hi1, Or.inr ⟨by omega, h.symm⟩⟩))
    · intro hno
      unfold byteAt
      rw [(k2 g).2]
      rintro (h | h | ⟨i, hi0, hi1, h | ⟨_, h⟩⟩)
      · omega
      · exact hno (Or.inl h)
      · omega
      · exact hno (Or.inr ⟨i, hi0, hi1, h.symm⟩)
  · intro g i hg0 hg1 hi0 hi1
    by_cases e : g = t
    · rw [if_pos e, e]
      exact (k2 (256 * t + i)).1 (Or.inr (Or.inr ⟨i, hi0, hi1, Or.inl rfl⟩))
    · rw [if_neg e]
      unfold byteAt
      rw [(k2 (256 * g + i)).2]
      rintro (h | h | ⟨i', hi0', hi1', h | ⟨_, h⟩⟩)
      · omega
      · omega
      · omega
      · have := hs i' hi0' hi1'
        omega

/-! ## The invariant of the page-table structure -/

theorem byteAt_initialize_mem (a : Int) (h : a ≠ 0) : byteAt initialize_mem a = 0 := by
  have h0 : get_address 0 0 = 0 := by decide
  unfold initialize_mem
  rw [h0, byteAt_setByte, if_neg h]
  rfl

theorem TablesInv_init : TablesInv initialize_mem where
  dir_used := fun q hq0 _ hne => absurd (byteAt_initialize_mem (64 + q) (by omega)) hne
  dir_inj := fun q _ hq0 _ _ _ hne _ => absurd (byteAt_initialize_mem (64 + q) (by omega)) hne
  slot_used := fun q _ hq0 _ hne _ _ _ => absurd (byteAt_initialize_mem (64 + q) (by omega)) hne
  slot_inj := fun q _ _ _ hq0 _ _ _ hne _ _ _ _ _ _ _ =>
    absurd (byteAt_initialize_mem (64 + q) (by omega)) hne
  clean := fun g i hg0 _ hi0 _ hne =>
    absurd (byteAt_initialize_mem (256 * g + i) (by omega)) hne

theorem TablesInv_new_process (m m' : Mem) (p n : Int) (out : List Msg) (hI : TablesInv m)
    (hp0 : 0 ≤ p) (hp1 : p ≤ 191) (h : new_process m p n = some (m', out)) : TablesInv m' := by
  cases hF : freePages m with
  | nil =>
    rw [new_process_nil m p n hF] at h
    injection h with h
    have := congrArg Prod.fst h
    simp only at this
    rw [← this]
    exact hI
  | cons f r =>
    obtain ⟨hf1, hf2, hf3, _⟩ := freePages_head m f r hF
    have hclean : ∀ i, 0 ≤ i → i < 64 → byteAt m (256 * f + i) = 0 := by
      intro i hi0 hi1
      by_contra hne
      exact (hI.clean f i hf1 hf2 hi0 hi1 hne).1 hf3
    obtain ⟨m'', out'', D, h1, hD, hdir, hbm, hso, hsf, hsi⟩ :=
      new_process_view m p n f r hp0 hp1 hF hclean
    rw [h1] at h
    injection h with h
    have hmm := congrArg Prod.fst h
    simp only at hmm
    subst hmm
    -- used pages stay used and are not among the pages just taken
    have hmono : ∀ g, 1 ≤ g → g ≤ 63 → byteAt m g ≠ 0 →
        byteAt m'' g ≠ 0 ∧ g ≠ f ∧ ¬ D g := by
      intro g hg0 hg1 hne
      have hgf : g ≠ f := fun e => hne (e ▸ hf3)
      have hgD : ¬ D g := fun hd => hne (hD g hd).2.2.1
      refine ⟨?_, hgf, hgD⟩
      rw [(hbm g hg0 hg1).2 (by rintro (e | e); exact hgf e; exact hgD e)]
      exact hne
    have hnew : ∀ g, 1 ≤ g → g ≤ 63 → (g = f ∨ D g) → byteAt m'' g ≠ 0 := by
      intro g hg0 hg1 hg
      rw [(hbm g hg0 hg1).1 hg]
      decide
    -- a live process other than `p` was live before, with the same page table
    have hold : ∀ q, 0 ≤ q → q ≤ 191 → q ≠ p → byteAt m'' (64 + q) ≠ 0 →
        byteAt m'' (64 + q) = byteAt m (64 + q) ∧ byteAt m (64 + q) ≠ 0 ∧
        1 ≤ byteAt m (64 + q) ∧ byteAt m (64 + q) ≤ 63 ∧ byteAt m (64 + q) ≠ f ∧
        ∀ i, 0 ≤ i → i < 64 →
          byteAt m'' (256 * byteAt m (64 + q) + i) = byteAt m (256 * byteAt m (64 + q) + i) := by
      intro q hq0 hq1 hqp hne
      have e := hdir q hq0 hq1
      rw [if_neg hqp] at e
      rw [e] at hne
      obtain ⟨a, b, c⟩ := hI.dir_used q hq0 hq1 hne
      have hgf := (hmono _ a b c).2.1
      exact ⟨e, hne, a, b, hgf, fun i hi0 hi1 => hso _ i a b hgf hi0 hi1⟩
    have hpdir : byteAt m'' (64 + p) = f := by
      have e := hdir p hp0 hp1
      rw [if_pos rfl] at e
      exact e
    constructor
    · -- dir_used
      intro q hq0 hq1 hne
      by_cases e : q = p
      · subst e
        rw [hpdir]
        exact ⟨hf1, hf2, hnew f hf1 hf2 (Or.inl rfl)⟩
      · obtain ⟨e1, e2, a, b, _, _⟩ := hold q hq0 hq1 e hne
        rw [e1]
        exact ⟨a, b, (hmono _ a b (hI.dir_used q hq0 hq1 e2).2.2).1⟩
    · -- dir_inj
      intro q q' hq0 hq1 hq0' hq1' hne he
      by_cases e : q = p
      · by_cases e' : q' = p
        · rw [e, e']
        · exfalso
          subst e
          rw [hpdir] at he
          have hne' : byteAt m'' (64 + q') ≠ 0 := by rw [← he]; omega
          obtain ⟨e1, _, _, _, c, _⟩ := hold q' hq0' hq1' e' hne'
          rw [e1] at he
          exact c he.symm
      · obtain ⟨e1, e2, _, _, c, _⟩ := hold q hq0 hq1 e hne
        by_cases e' : q' = p
        · exfalso
          subst e'
          rw [hpdir, e1] at he
          exact c he
        · have hne' : byteAt m'' (64 + q') ≠ 0 := by rw [← he]; exact hne
          obtain ⟨e1', _, _, _, _, _⟩ := hold q' hq0' hq1' e' hne'
          rw [e1, e1'] at he
          exact hI.dir_inj q q' hq0 hq1 hq0' hq1' e2 he
    · -- slot_used
      intro q i hq0 hq1 hne hi0 hi1 hs
      by_cases e : q = p
      · subst e
        rw [hpdir] at hs ⊢
        have hd := hsf i hi0 hi1 hs
        obtain ⟨a, b, c, d⟩ := hD _ hd
        refine ⟨a, b, hnew _ a b (Or.inr hd), ?_⟩
        intro q' hq0' hq1' he
        by_cases e' : q' = q
        · subst e'
          rw [hpdir] at he
          exact d he.symm
        · have hne' : byteAt m'' (64 + q') ≠ 0 := by rw [he]; exact hs
          obtain ⟨e1', e2', _, _, _, _⟩ := hold q' hq0' hq1' e' hne'
          rw [e1'] at he
          have := (hI.dir_used q' hq0' hq1' e2').2.2
          rw [he] at this
          exact this c
      · obtain ⟨e1, e2, _, _, _, e3⟩ := hold q hq0 hq1 e hne
        rw [e1, e3 i hi0 hi1] at hs ⊢
        obtain ⟨a, b, c, d⟩ := hI.slot_used q i hq0 hq1 e2 hi0 hi1 hs
        refine ⟨a, b, (hmono _ a b c).1, ?_⟩
        intro q' hq0' hq1' he
        by_cases e' : q' = p
        · subst e'
          rw [hpdir] at he
          exact (hmono _ a b c).2.1 he.symm
        · have hne' : byteAt m'' (64 + q') ≠ 0 := by rw [he]; exact hs
          obtain ⟨e1', _, _, _, _, _⟩ := hold q' hq0' hq1' e' hne'
          rw [e1'] at he
          exact d q' hq0' hq1' he
    · -- slot_inj
      intro q q' i i' hq0 hq1 hq0' hq1' hne hne' hi0 hi1 hi0' hi1' hs he
      by_cases e : q = p
      · by_cases e' : q' = p
        · rw [e, hpdir] at hs he
          rw [e', hpdir] at he
          exact ⟨by rw [e, e'], hsi i i' hi0 hi1 hi0' hi1' hs he⟩
        · exfalso
          rw [e, hpdir] at hs he
          obtain ⟨e1', e2', _, _, _, e3'⟩ := hold q' hq0' hq1' e' hne'
          rw [e1', e3' i' hi0' hi1'] at he
          have hd := hD _ (hsf i hi0 hi1 hs)
          rw [he] at hd hs
          exact (hI.slot_used q' i' hq0' hq1' e2' hi0' hi1' hs).2.2.1 hd.2.2.1
      · obtain ⟨e1, e2, _, _, _, e3⟩ := hold q hq0 hq1 e hne
        rw [e1, e3 i hi0 hi1] at hs he
        by_cases e' : q' = p
        · exfalso
          rw [e', hpdir] at he
          have hs' : byteAt m'' (256 * f + i') ≠ 0 := by rw [← he]; exact hs
          have hd := hD _ (hsf i' hi0' hi1' hs')
          rw [← he] at hd
          exact (hI.slot_used q i hq0 hq1 e2 hi0 hi1 hs).2.2.1 hd.2.2.1
        · obtain ⟨e1', e2', _, _, _, e3'⟩ := hold q' hq0' hq1' e' hne'
          rw [e1', e3' i' hi0' hi1'] at he
          exact hI.slot_inj q q' i i' hq0 hq1 hq0' hq1' e2 e2' hi0 hi1 hi0' hi1' hs he
    · -- clean
      intro g i hg0 hg1 hi0 hi1 hs
      by_cases eg : g = f
      · subst eg
        refine ⟨hnew g hg0 hg1 (Or.inl rfl), ?_⟩
        intro q i' hq0 hq1 hne hi0' hi1' he
        by_cases e : q = p
        · rw [e, hpdir] at he
          have hs' : byteAt m'' (256 * g + i') ≠ 0 := by rw [he]; omega
          exact (hD _ (hsf i' hi0' hi1' hs')).2.2.2 he
        · obtain ⟨e1, e2, _, _, _, e3⟩ := hold q hq0 hq1 e hne
          rw [e1, e3 i' hi0' hi1'] at he
          have := (hI.slot_used q i' hq0 hq1 e2 hi0' hi1' (by rw [he]; omega)).2.2.1
          rw [he] at this
          exact this hf3
      · rw [hso g i hg0 hg1 eg hi0 hi1] at hs
        obtain ⟨a, b⟩ := hI.clean g i hg0 hg1 hi0 hi1 hs
        refine ⟨(hmono g hg0 hg1 a).1, ?_⟩
        intro q i' hq0 hq1 hne hi0' hi1' he
        by_cases e : q = p
        · rw [e, hpdir] at he
          have hs' : byteAt m'' (256 * f + i') ≠ 0 := by rw [he]; omega
          have hd := hD _ (hsf i' hi0' hi1' hs')
          rw [he] at hd
          exact a hd.2.2.1
        · obtain ⟨e1, e2, _, _, _, e3⟩ := hold q hq0 hq1 e hne
          rw [e1, e3 i' hi0' hi1'] at he
          exact b q i' hq0 hq1 e2 hi0' hi1' he

theorem TablesInv_kill_process (m m' : Mem) (p : Int) (out : List Msg) (hI : TablesInv m)
    (hp0 : 0 ≤ p) (hp1 : p ≤ 191) (h : kill_process m p = some (m', out)) : TablesInv m' := by
  by_cases hz : byteAt m (64 + p) = 0
  · rw [kill_process_zero m p hp0 hp1 hz] at h
    injection h with h
    have := congrArg Prod.fst h
    simp only at this
    rw [← this]
    exact hI
  · obtain ⟨ht0, ht1, _⟩ := hI.dir_used p hp0 hp1 hz
    have hs : ∀ i, 0 ≤ i → i < 64 → byteAt m (256 * byteAt m (64 + p) + i) ≤ 63 := by
      intro i hi0 hi1
      by_cases h0 : byteAt m (256 * byteAt m (64 + p) + i) = 0
      · omega
      · exact (hI.slot_used p i hp0 hp1 hz hi0 hi1 h0).2.1
    obtain ⟨m'', out'', k1, hdir, hbm, hsl⟩ :=
      kill_process_view m p (byteAt m (64 + p)) hp0 hp1 rfl ht0 ht1 hs
    rw [k1] at h
    injection h with h
    have hmm := congrArg Prod.fst h
    simp only at hmm
    subst hmm
    -- a process live afterwards was live before, with the same page table
    have hold : ∀ q, 0 ≤ q → q ≤ 191 → byteAt m'' (64 + q) ≠ 0 →
        q ≠ p ∧ byteAt m'' (64 + q) = byteAt m (64 + q) ∧ byteAt m (64 + q) ≠ 0 ∧
        1 ≤ byteAt m (64 + q) ∧ byteAt m (64 + q) ≤ 63 ∧
        ∀ i, 0 ≤ i → i < 64 →
          byteAt m'' (256 * byteAt m (64 + q) + i) = byteAt m (256 * byteAt m (64 + q) + i) := by
      intro q hq0 hq1 hne
      have e := hdir q hq0 hq1
      have hqp : q ≠ p := by
        intro e'
        rw [if_pos e'] at e
        exact hne e
      rw [if_neg hqp] at e
      rw [e] at hne
      obtain ⟨a, b, _⟩ := hI.dir_used q hq0 hq1 hne
      refine ⟨hqp, e, hne, a, b, ?_⟩
      intro i hi0 hi1
      rw [hsl _ i a b hi0 hi1, if_neg]
      intro e'
      exact hqp (hI.dir_inj q p hq0 hq1 hp0 hp1 hne e')
    -- a used page that is neither the table of `p` nor in one of its slots stays used
    have hkeep : ∀ g, 1 ≤ g → g ≤ 63 → byteAt m g ≠ 0 → g ≠ byteAt m (64 + p) →
        (∀ i, 0 ≤ i → i < 64 → byteAt m (256 * byteAt m (64 + p) + i) ≠ g) →
        byteAt m'' g ≠ 0 := by
      intro g hg0 hg1 hne hgt hgs
      rw [(hbm g hg0 hg1).2]
      · exact hne
      · rintro (e | ⟨i, hi0, hi1, e⟩)
        · exact hgt e
        · exact hgs i hi0 hi1 e
    constructor
    · -- dir_used
      intro q hq0 hq1 hne
      obtain ⟨hqp, e1, e2, a, b, _⟩ := hold q hq0 hq1 hne
      rw [e1]
      refine ⟨a, b, hkeep _ a b (hI.dir_used q hq0 hq1 e2).2.2 ?_ ?_⟩
      · intro e
        exact hqp (hI.dir_inj q p hq0 hq1 hp0 hp1 e2 e)
      · intro i hi0 hi1 e
        exact (hI.slot_used p i hp0 hp1 hz hi0 hi1 (by rw [e]; omega)).2.2.2 q hq0 hq1 e.symm
    · -- dir_inj
      intro q q' hq0 hq1 hq0' hq1' hne he
      have hne' : byteAt m'' (64 + q') ≠ 0 := by rw [← he]; exact hne
      obtain ⟨_, e1, e2, _, _, _⟩ := hold q hq0 hq1 hne
      obtain ⟨_, e1', _, _, _, _⟩ := hold q' hq0' hq1' hne'
      rw [e1, e1'] at he
      exact hI.dir_inj q q' hq0 hq1 hq0' hq1' e2 he
    · -- slot_used
      intro q i hq0 hq1 hne hi0 hi1 hsn
      obtain ⟨hqp, e1, e2, _, _, e3⟩ := hold q hq0 hq1 hne
      rw [e1, e3 i hi0 hi1] at hsn ⊢
      obtain ⟨a, b, c, d⟩ := hI.slot_used q i hq0 hq1 e2 hi0 hi1 hsn
      refine ⟨a, b, hkeep _ a b c ?_ ?_, ?_⟩
      · intro e
        exact d p hp0 hp1 e.symm
      · intro i' hi0' hi1' e
        exact hqp (hI.slot_inj q p i i' hq0 hq1 hp0 hp1 e2 hz hi0 hi1 hi0' hi1' hsn e.symm).1
      · intro q' hq0' hq1' he
        have hne' : byteAt m'' (64 + q') ≠ 0 := by rw [he]; exact hsn
        obtain ⟨_, e1', _, _, _, _⟩ := hold q' hq0' hq1' hne'
        rw [e1'] at he
        exact d q' hq0' hq1' he
    · -- slot_inj
      intro q q' i i' hq0 hq1 hq0' hq1' hne hne' hi0 hi1 hi0' hi1' hsn he
      obtain ⟨_, e1, e2, _, _, e3⟩ := hold q hq0 hq1 hne
      obtain ⟨_, e1', e2', _, _, e3'⟩ := hold q' hq0' hq1' hne'
      rw [e1, e3 i hi0 hi1] at hsn he
      rw [e1', e3' i' hi0' hi1'] at he
      exact hI.slot_inj q q' i i' hq0 hq1 hq0' hq1' e2 e2' hi0 hi1 hi0' hi1' hsn he
    · -- clean
      intro g i hg0 hg1 hi0 hi1 hsn
      rw [hsl g i hg0 hg1 hi0 hi1] at hsn
      have hgt : g ≠ byteAt m (64 + p) := by
        intro e
        rw [if_pos e] at hsn
        exact hsn rfl
      rw [if_neg hgt] at hsn
      obtain ⟨a, b⟩ := hI.clean g i hg0 hg1 hi0 hi1 hsn
      refine ⟨hkeep g hg0 hg1 a hgt (fun i' hi0' hi1' => b p i' hp0 hp1 hz hi0' hi1'), ?_⟩
      intro q i' hq0 hq1 hne hi0' hi1' he
      obtain ⟨_, e1, e2, _, _, e3⟩ := hold q hq0 hq1 hne
      rw [e1, e3 i' hi0' hi1'] at he
      exact b q i' hq0 hq1 e2 hi0' hi1' he

theorem TablesInv_of_reachable (m : Mem) (h : ProcReachable m) : TablesInv m := by
  induction h with
  | init => exact TablesInv_init
  | new_process m m' p n out _ hp0 hp1 hstep ih =>
    exact TablesInv_new_process m m' p n out ih hp0 hp1 hstep
  | kill_process m m' p out _ hp0 hp1 hstep ih =>
    exact TablesInv_kill_process m m' p out ih hp0 hp1 hstep

/-! ## Claims about the allocator and process creation -/

/-- C1: whenever some page in `1 .. 63` is free, `allocate_page` returns the
smallest free page `f` (so never 0), sets `mem[f]` to 1 and leaves every other
byte of the store unchanged. -/
theorem allocate_page_lowest_free (m : Mem) (h : ∃ i, 1 ≤ i ∧ i ≤ 63 ∧ byteAt m i = 0) :
    ∃ f m', allocate_page m = some (m', f) ∧ 1 ≤ f ∧ f ≤ 63 ∧ f ≠ 0 ∧ byteAt m f = 0 ∧
      (∀ j, 1 ≤ j → j < f → byteAt m j ≠ 0) ∧ byteAt m' f = 1 ∧ ∀ a, a ≠ f → m' a = m a := by
  obtain ⟨i, h1, h2, h3⟩ := h
  cases hF : freePages m with
  | nil => exact absurd h3 ((freePages_eq_nil m).1 hF i h1 h2)
  | cons f r =>
    obtain ⟨hf1, hf2, hf3, hf4⟩ := freePages_head m f r hF
    refine ⟨f, setByte m f 1, allocate_page_cons m f r hF, hf1, hf2, by omega, hf3, hf4, ?_,
      fun a ha => setByte_other m f 1 a ha⟩
    rw [byteAt_setByte, if_pos rfl]
    rfl

/-- C1 at the freshly initialised store, where page 1 is free. -/
theorem allocate_page_lowest_free_witness :
    (∃ i : Int, 1 ≤ i ∧ i ≤ 63 ∧ byteAt initialize_mem i = 0) ∧
    ∃ f m', allocate_page initialize_mem = some (m', f) ∧ 1 ≤ f ∧ f ≤ 63 ∧ f ≠ 0 ∧
      byteAt initialize_mem f = 0 ∧ (∀ j, 1 ≤ j → j < f → byteAt initialize_mem j ≠ 0) ∧
      byteAt m' f = 1 ∧ ∀ a, a ≠ f → m' a = initialize_mem a :=
  ⟨⟨1, by decide, by decide, by decide⟩,
    allocate_page_lowest_free initialize_mem ⟨1, by decide, by decide, by decide⟩⟩

/-- C2: for a process id `p` in `0 .. 191` and `n` data pages, when at least
`n + 1` pages are free and `f_0 < f_1 < … < f_n` are the lowest free pages,
`new_process(p, n)` succeeds silently and leaves `mem[64 + p] = f_0`,
`mem[256 * f_0 + i] = f_(i+1)` for `i < n`, `mem[f_j] = 1` for `j ≤ n`, and
every other byte unchanged. -/
theorem new_process_maps_lowest_free (m : Mem) (p : Int) (n : Nat) (hp0 : 0 ≤ p) (hp1 : p ≤ 191)
    (hn : n + 1 ≤ (freePages m).length) :
    ∃ m', new_process m p n = some (m', []) ∧
      byteAt m' (64 + p) = (freePages m).getD 0 0 ∧
      (∀ i : Nat, i < n →
        byteAt m' (256 * (freePages m).getD 0 0 + i) = (freePages m).getD (i + 1) 0) ∧
      (∀ j : Nat, j ≤ n → byteAt m' ((freePages m).getD j 0) = 1) ∧
      (∀ a, a ≠ 64 + p → (∀ i : Nat, i < n → a ≠ 256 * (freePages m).getD 0 0 + i) →
        (∀ j : Nat, j ≤ n → a ≠ (freePages m).getD j 0) → m' a = m a) := by
  cases hF : freePages m with
  | nil => rw [hF] at hn; simp at hn
  | cons f r =>
    rw [hF] at hn
    simp only [List.length_cons] at hn
    obtain ⟨m', h1, _, h3, h4, h5, h6⟩ := new_process_cons m p n f r hp0 hp1 hF
    simp only [Int.toNat_ofNat] at h1 h5 h6
    rw [if_pos (by omega)] at h1
    refine ⟨m', h1, h3, fun i hi => (h5 i hi (by omega)).1, ?_, ?_⟩
    · intro j hj
      cases j with
      | zero => exact h4
      | succ j => exact (h5 j (by omega) (by omega)).2
    · intro a ha1 ha2 ha3
      apply h6 a ha1 (ha3 0 (by omega))
      intro j hj _
      exact ⟨ha2 j hj, ha3 (j + 1) (by omega)⟩

/-- C2 at the freshly initialised store: `new_process(0, 2)`. -/
theorem new_process_maps_lowest_free_witness :
    ∃ m', new_process initialize_mem 0 (2 : Nat) = some (m', []) ∧
      byteAt m' (64 + 0) = (freePages initialize_mem).getD 0 0 ∧
      (∀ i : Nat, i < 2 → byteAt m' (256 * (freePages initialize_mem).getD 0 0 + i)
        = (freePages initialize_mem).getD (i + 1) 0) ∧
      (∀ j : Nat, j ≤ 2 → byteAt m' ((freePages initialize_mem).getD j 0) = 1) ∧
      (∀ a, a ≠ 64 + 0 →
        (∀ i : Nat, i < 2 → a ≠ 256 * (freePages initialize_mem).getD 0 0 + i) →
        (∀ j : Nat, j ≤ 2 → a ≠ (freePages initialize_mem).getD j 0) →
          m' a = initialize_mem a) :=
  new_process_maps_lowest_free initialize_mem 0 2 (by decide) (by decide) (by decide)

/-- C8: `allocate_page` returns the failure value `-1` exactly when every
bitmap byte `mem[1 .. 63]` is nonzero, and then the store is unchanged. -/
theorem allocate_page_fails_iff (m : Mem) :
    ((∃ m', allocate_page m = some (m', -1)) ↔ ∀ i, 1 ≤ i → i ≤ 63 → byteAt m i ≠ 0) ∧
      ∀ m', allocate_page m = some (m', -1) → m' = m := by
  cases hF : freePages m with
  | nil =>
    have h := allocate_page_nil m hF
    refine ⟨⟨fun _ => (freePages_eq_nil m).1 hF, fun _ => ⟨m, h⟩⟩, ?_⟩
    intro m' h'
    rw [h] at h'
    injection h' with h'
    exact (congrArg Prod.fst h').symm
  | cons f r =>
    have h := allocate_page_cons m f r hF
    obtain ⟨hf1, hf2, hf3, _⟩ := freePages_head m f r hF
    have hne : ∀ m', allocate_page m ≠ some (m', -1) := by
      intro m' h'
      rw [h] at h'
      injection h' with h'
      have := congrArg Prod.snd h'
      simp only at this
      omega
    exact ⟨⟨fun ⟨m', h'⟩ => absurd h' (hne m'), fun hall => absurd hf3 (hall f hf1 hf2)⟩,
      fun m' h' => absurd h' (hne m')⟩

/-- C9: when no page in `1 .. 63` is free, `new_process(p, n)` (any `p`, any
`n`) reports the page-table allocation failure and leaves the whole store
unchanged. -/
theorem new_process_no_free_page (m : Mem) (p n : Int)
    (h : ∀ i, 1 ≤ i → i ≤ 63 → byteAt m i ≠ 0) :
    new_process m p n = some (m, [Msg.failed_page_table p]) :=
  new_process_nil m p n ((freePages_eq_nil m).2 h)

/-- C9 at a store whose bytes are all 1, with a negative id and count. -/
theorem new_process_no_free_page_witness :
    (∀ i : Int, 1 ≤ i → i ≤ 63 → byteAt (fun _ => 1) i ≠ 0) ∧
      new_process (fun _ => 1) (-5) (-7) = some (fun _ => 1, [Msg.failed_page_table (-5)]) :=
  ⟨fun _ _ _ => by simp [byteAt],
    new_process_no_free_page (fun _ => 1) (-5) (-7) (fun _ _ _ => by simp [byteAt])⟩

/-- C10: with exactly `k ≥ 1` free pages and `n ≥ k` pages requested,
`new_process(p, n)` reports the data-page failure at index `k - 1` and keeps
what it did: `mem[64 + p]` is the lowest previously free page, slots
`0 .. k - 2` of that page hold the other previously free pages in ascending
order, and every bitmap byte `mem[1 .. 63]` is nonzero. -/
theorem new_process_partial (m : Mem) (p n : Int) (k : Nat) (hp0 : 0 ≤ p) (hp1 : p ≤ 191)
    (hk : (freePages m).length = k) (hk1 : 1 ≤ k) (hn : (k : Int) ≤ n) :
    ∃ m', new_process m p n = some (m', [Msg.failed_data_page p ((k : Int) - 1)]) ∧
      byteAt m' (64 + p) = (freePages m).getD 0 0 ∧
      (∀ i : Nat, i + 1 < k →
        byteAt m' (256 * (freePages m).getD 0 0 + i) = (freePages m).getD (i + 1) 0) ∧
      (∀ i, 1 ≤ i → i ≤ 63 → byteAt m' i ≠ 0) := by
  cases hF : freePages m with
  | nil => rw [hF] at hk; simp at hk; omega
  | cons f r =>
    rw [hF] at hk
    simp only [List.length_cons] at hk
    obtain ⟨m', h1, h2, h3, _, h5, _⟩ := new_process_cons m p n f r hp0 hp1 hF
    have hnk : r.length < n.toNat := by omega
    rw [if_neg (by omega)] at h1
    have e : (r.length : Int) = (k : Int) - 1 := by omega
    rw [e] at h1
    refine ⟨m', h1, h3, fun i hi => (h5 i (by omega) (by omega)).1, ?_⟩
    apply (freePages_eq_nil m').1
    rw [h2]
    exact List.drop_eq_nil_of_le (by omega)

/-- C10 at the freshly initialised store (63 free pages): `new_process(1, 63)`. -/
theorem new_process_partial_witness :
    ∃ m', new_process initialize_mem 1 63 = some (m', [Msg.failed_data_page 1 ((63 : Nat) - 1)]) ∧
      byteAt m' (64 + 1) = (freePages initialize_mem).getD 0 0 ∧
      (∀ i : Nat, i + 1 < 63 → byteAt m' (256 * (freePages initialize_mem).getD 0 0 + i)
        = (freePages initialize_mem).getD (i + 1) 0) ∧
      (∀ i, 1 ≤ i → i ≤ 63 → byteAt m' i ≠ 0) :=
  new_process_partial initialize_mem 1 63 63 (by decide) (by decide) (by decide) (by decide)
    (by decide)

/-! ## Claims about destruction, store and load -/

/-- C7: for a process id `p` in `0 .. 191` whose directory entry
`t = mem[64 + p]` is in `1 .. 63`, `kill_process(p)` succeeds silently and
yields the old store with exactly these bytes set to 0: `mem[64 + p]`,
`mem[t]`, the 64 slots `mem[256 * t + i]`, and `mem[q]` for every nonzero `q`
one of those slots held before the call. -/
theorem kill_process_frees (m : Mem) (p : Int) (hp0 : 0 ≤ p) (hp1 : p ≤ 191)
    (ht0 : 1 ≤ byteAt m (64 + p)) (ht1 : byteAt m (64 + p) ≤ 63) :
    ∃ m', kill_process m p = some (m', []) ∧
      ∀ a, ((a = 64 + p ∨ a = byteAt m (64 + p) ∨ ∃ i, 0 ≤ i ∧ i < 64 ∧
              (a = 256 * byteAt m (64 + p) + i ∨
                (byteAt m (256 * byteAt m (64 + p) + i) ≠ 0 ∧
                  a = byteAt m (256 * byteAt m (64 + p) + i)))) →
            byteAt m' a = 0) ∧
           ((¬ (a = 64 + p ∨ a = byteAt m (64 + p) ∨ ∃ i, 0 ≤ i ∧ i < 64 ∧
              (a = 256 * byteAt m (64 + p) + i ∨
                (byteAt m (256 * byteAt m (64 + p) + i) ≠ 0 ∧
                  a = byteAt m (256 * byteAt m (64 + p) + i))))) →
            m' a = m a) :=
  kill_process_spec m p (byteAt m (64 + p)) hp0 hp1 rfl ht0 ht1

/-- C7 at the store left by `new_process(0, 1)` on a fresh store (page table
in page 1, one data page 2). -/
theorem kill_process_frees_witness :
    ∃ m', kill_process (setByte (setByte (setByte (setByte initialize_mem 1 1) 64 1) 2 1) 256 2) 0
        = some (m', []) ∧ byteAt m' 64 = 0 ∧ byteAt m' 1 = 0 ∧ byteAt m' 256 = 0 ∧
      byteAt m' 2 = 0 := by
  obtain ⟨m', h1, h2⟩ := kill_process_frees
    (setByte (setByte (setByte (setByte initialize_mem 1 1) 64 1) 2 1) 256 2) 0
    (by decide) (by decide) (by decide) (by decide)
  refine ⟨m', h1, (h2 64).1 ?_, (h2 1).1 ?_, (h2 256).1 ?_, (h2 2).1 ?_⟩
  · exact Or.inl (by decide)
  · exact Or.inr (Or.inl (by decide))
  · exact Or.inr (Or.inr ⟨0, by decide, by decide, Or.inl (by decide)⟩)
  · exact Or.inr (Or.inr ⟨0, by decide, by decide, Or.inr ⟨by decide, by decide⟩⟩)

/-- C6 as stated fails: after `new_process(0, 1)` on a fresh store (page
table `t = 1`, `mem[256] = 2`), `store_value(0, 65536, 7)` has `i = 256`; the
code reads the slot at `(1 << 8) | 256 = 256` and writes 7 at address 512,
while the address named by the claim, `256 * mem[256 * t + i] + o`, is 0, a
byte that keeps its value 1. -/
theorem store_value_slot_address_counterexample :
    ∃ m m', new_process initialize_mem 0 1 = some (m, []) ∧
      store_value m 0 65536 7 = some (m', [Msg.store 0 65536 512 7]) ∧
      256 * byteAt m (256 * byteAt m (64 + 0) + 65536 / 256) + 65536 % 256 = 0 ∧
      byteAt m' 0 = 1 ∧ byteAt m 512 = 0 ∧ byteAt m' 512 = 7 :=
  ⟨_, _, rfl, rfl, by decide, by decide, by decide, by decide⟩

/-- C6, amended: for `p` in `0 .. 191` and `v ≥ 0` with in-bounds accesses,
writing `t = mem[64 + p]`, `i = v >> 8`, `o = v & 255` and
`s = get_address(t, i) = (t << 8) | i` for the slot address the code reads
(which is `256 * t + i` whenever `v < 65536`), `store_value(p, v, x)` writes
`x mod 256` at exactly `256 * mem[s] + o` and changes no other byte, and
`load_value(p, v)` in the same state returns the byte at that address. -/
theorem store_value_writes_translated (m : Mem) (p v x : Int) (hp0 : 0 ≤ p) (hp1 : p ≤ 191)
    (hv : 0 ≤ v) (hs : get_address (byteAt m (64 + p)) (v / 256) < 16384)
    (hph : 256 * byteAt m (get_address (byteAt m (64 + p)) (v / 256)) + v % 256 < 16384) :
    v >>> PAGE_SHIFT = v / 256 ∧ Int.land v (PAGE_SIZE - 1) = v % 256 ∧
    (v < 65536 → get_address (byteAt m (64 + p)) (v / 256) = 256 * byteAt m (64 + p) + v / 256) ∧
    ∃ m', store_value m p v x = some (m',
        [Msg.store p v (256 * byteAt m (get_address (byteAt m (64 + p)) (v / 256)) + v % 256) x]) ∧
      byteAt m' (256 * byteAt m (get_address (byteAt m (64 + p)) (v / 256)) + v % 256) = x % 256 ∧
      (∀ a, a ≠ 256 * byteAt m (get_address (byteAt m (64 + p)) (v / 256)) + v % 256 →
        m' a = m a) ∧
      load_value m p v =
        some (byteAt m (256 * byteAt m (get_address (byteAt m (64 + p)) (v / 256)) + v % 256),
          [Msg.load p v (256 * byteAt m (get_address (byteAt m (64 + p)) (v / 256)) + v % 256)
            (byteAt m (256 * byteAt m (get_address (byteAt m (64 + p)) (v / 256)) + v % 256))]) := by
  refine ⟨shiftRight_eq v hv, land_eq v hv, ?_, _, store_value_spec m p v x hp0 hp1 hv hs hph, ?_,
    fun a ha => setByte_other _ _ _ _ ha, load_value_spec m p v hp0 hp1 hv hs hph⟩
  · intro hv'
    exact get_address_slot _ _ (byteAt_nonneg _ _) (by omega) (by omega)
  · rw [byteAt_setByte, if_pos rfl]

/-- C6 amended, at the store left by `new_process(0, 1)`: `store_value(0, 0, 42)`. -/
theorem store_value_writes_translated_witness :
    ∃ m', store_value (setByte (setByte (setByte (setByte initialize_mem 1 1) 64 1) 2 1) 256 2)
        0 0 42 = some (m', [Msg.store 0 0 512 42]) ∧ byteAt m' 512 = 42 := by
  obtain ⟨_, _, _, m', h1, h2, _, _⟩ := store_value_writes_translated
    (setByte (setByte (setByte (setByte initialize_mem 1 1) 64 1) 2 1) 256 2) 0 0 42
    (by decide) (by decide) (by decide) (by decide) (by decide)
  exact ⟨m', h1, h2⟩

/-- C4 as stated fails already on the fresh store: `store_value(1, 514, 7)`
translates through `mem[2] = 0` to address 2 and so overwrites the very byte
used as page-table slot; the following `load_value(1, 514)` then translates to
address 1794 and returns 0, not 7. -/
theorem store_load_roundtrip_counterexample :
    ∃ m', store_value initialize_mem 1 514 7 = some (m', [Msg.store 1 514 2 7]) ∧
      load_value m' 1 514 = some (0, [Msg.load 1 514 1794 0]) ∧ (7 : Int) % 256 ≠ 0 :=
  ⟨_, rfl, rfl, by decide⟩

/-- C4, amended: for every store, `p` in `0 .. 191` and `v ≥ 0` with in-bounds
accesses, if the physical address `store_value(p, v, x)` writes is neither the
directory entry `64 + p` nor the page-table slot it translated through, then
the following `load_value(p, v)` reads that same address and returns
`x mod 256`. -/
theorem store_load_roundtrip (m : Mem) (p v x : Int) (hp0 : 0 ≤ p) (hp1 : p ≤ 191)
    (hv : 0 ≤ v) (hs : get_address (byteAt m (64 + p)) (v / 256) < 16384)
    (hph : 256 * byteAt m (get_address (byteAt m (64 + p)) (v / 256)) + v % 256 < 16384)
    (hdir : 256 * byteAt m (get_address (byteAt m (64 + p)) (v / 256)) + v % 256 ≠ 64 + p)
    (hslot : 256 * byteAt m (get_address (byteAt m (64 + p)) (v / 256)) + v % 256 ≠
      get_address (byteAt m (64 + p)) (v / 256)) :
    ∃ m', store_value m p v x = some (m',
        [Msg.store p v (256 * byteAt m (get_address (byteAt m (64 + p)) (v / 256)) + v % 256) x]) ∧
      load_value m' p v = some (x % 256,
        [Msg.load p v (256 * byteAt m (get_address (byteAt m (64 + p)) (v / 256)) + v % 256)
          (x % 256)]) := by
  refine ⟨_, store_value_spec m p v x hp0 hp1 hv hs hph, ?_⟩
  generalize hA : 256 * byteAt m (get_address (byteAt m (64 + p)) (v / 256)) + v % 256 = A
    at hph hdir hslot
  have e1 : byteAt (setByte m A x) (64 + p) = byteAt m (64 + p) := by
    rw [byteAt_setByte, if_neg (Ne.symm hdir)]
  have e2 : byteAt (setByte m A x) (get_address (byteAt m (64 + p)) (v / 256)) =
      byteAt m (get_address (byteAt m (64 + p)) (v / 256)) := by
    rw [byteAt_setByte, if_neg (Ne.symm hslot)]
  have e3 : byteAt (setByte m A x) A = x % 256 := by
    rw [byteAt_setByte, if_pos rfl]
  have h := load_value_spec (setByte m A x) p v hp0 hp1 hv (by rw [e1]; exact hs)
    (by rw [e1, e2, hA]; exact hph)
  rw [e1, e2, hA, e3] at h
  exact h

/-- C4 amended, at the store left by `new_process(0, 1)`: `store_value(0, 0, 42)`
then `load_value(0, 0)` returns 42. -/
theorem store_load_roundtrip_witness :
    ∃ m', store_value (setByte (setByte (setByte (setByte initialize_mem 1 1) 64 1) 2 1) 256 2)
        0 0 42 = some (m', [Msg.store 0 0 512 42]) ∧
      load_value m' 0 0 = some (42, [Msg.load 0 0 512 42]) :=
  store_load_roundtrip (setByte (setByte (setByte (setByte initialize_mem 1 1) 64 1) 2 1) 256 2)
    0 0 42 (by decide) (by decide) (by decide) (by decide) (by decide) (by decide) (by decide)

/-! ## Creation followed by destruction -/

set_option maxRecDepth 100000 in
/-- C3 as stated fails in two ways.  (a) A process stores the byte 1 in its
data page 2 and is killed; page 1 is then taken by a new process 0; process 1
is created with page 2 as its page table, which still holds the stale byte 1
in slot 0, so killing process 1 frees page 1 as well: the bitmap byte `mem[1]`
was 1 before `new_process(1, 0)` and is 0 after `kill_process(1)`.  (b) With
process 0 owning all 63 pages, `new_process(0, 0)` fails at the page table and
`kill_process(0)` then destroys the old process, freeing page 1. -/
theorem create_kill_bitmap_counterexample :
    (∃ m1 m2 m3 m4 m5 m6, new_process initialize_mem 0 1 = some (m1, []) ∧
      store_value m1 0 0 1 = some (m2, [Msg.store 0 0 512 1]) ∧
      kill_process m2 0 = some (m3, []) ∧
      new_process m3 0 0 = some (m4, []) ∧
      new_process m4 1 0 = some (m5, []) ∧
      kill_process m5 1 = some (m6, []) ∧
      byteAt m4 1 = 1 ∧ byteAt m6 1 = 0) ∧
    (∃ m0 m2, new_process initialize_mem 0 62 = some (m0, []) ∧
      new_process m0 0 0 = some (m0, [Msg.failed_page_table 0]) ∧
      kill_process m0 0 = some (m2, []) ∧
      byteAt m0 1 = 1 ∧ byteAt m2 1 = 0) := by
  refine ⟨⟨_, _, _, _, _, _, rfl, rfl, rfl, rfl, rfl, rfl, by decide, by decide⟩, ?_⟩
  obtain ⟨f, r, hF, hf, hr⟩ : ∃ f r, freePages initialize_mem = f :: r ∧ f = 1 ∧ r.length = 62 :=
    ⟨_, _, rfl, rfl, rfl⟩
  subst hf
  obtain ⟨m0, h1, h2, h3, h4, _, _⟩ :=
    new_process_cons initialize_mem 0 62 1 r (by decide) (by decide) hF
  have e : (62 : Int).toNat = 62 := rfl
  rw [e, if_pos (by omega)] at h1
  rw [e, List.drop_eq_nil_of_le (by omega)] at h2
  obtain ⟨m2, k1, k2⟩ := kill_process_spec m0 0 1 (by decide) (by decide) h3 (by decide)
    (by decide)
  exact ⟨m0, m2, h1, new_process_nil m0 0 0 h2, k1, h4, (k2 1).1 (Or.inr (Or.inl rfl))⟩

/-- C3, amended: for every store in which the lowest free page (if there is
one) has its 64 page-table slots all 0, and in which `mem[64 + p] = 0` if no
page is free, for every `p` in `0 .. 191` and every page count `n`,
`new_process(p, n)` followed by `kill_process(p)` leaves the bitmap bytes
`mem[0 .. 63]` exactly as they were before `new_process`. -/
theorem create_kill_restores_bitmap (m : Mem) (p n : Int) (hp0 : 0 ≤ p) (hp1 : p ≤ 191)
    (hclean : ∀ f, 1 ≤ f → f ≤ 63 → byteAt m f = 0 → (∀ j, 1 ≤ j → j < f → byteAt m j ≠ 0) →
      ∀ i, 0 ≤ i → i < 64 → byteAt m (256 * f + i) = 0)
    (hfull : (∀ i, 1 ≤ i → i ≤ 63 → byteAt m i ≠ 0) → byteAt m (64 + p) = 0) :
    ∃ m1 out1 m2 out2, new_process m p n = some (m1, out1) ∧
      kill_process m1 p = some (m2, out2) ∧ ∀ a, 0 ≤ a → a ≤ 63 → m2 a = m a := by
  cases hF : freePages m with
  | nil =>
    exact ⟨m, _, m, _, new_process_nil m p n hF,
      kill_process_zero m p hp0 hp1 (hfull ((freePages_eq_nil m).1 hF)), fun _ _ _ => rfl⟩
  | cons f r =>
    obtain ⟨hf1, hf2, hf3, hf4⟩ := freePages_head m f r hF
    obtain ⟨m1, h1, _, h3, _, h5, h6⟩ := new_process_cons m p n f r hp0 hp1 hF
    obtain ⟨m2, k1, k2⟩ := kill_process_spec m1 p f hp0 hp1 h3 hf1 hf2
    have hsl := new_process_slots m m1 p f r n.toNat hp1 hf1 hF (hclean f hf1 hf2 hf3 hf4) h5 h6
    have hr := freePages_tail_mem m f r hF
    have hlen := freePages_length_le m
    rw [hF] at hlen
    simp only [List.length_cons] at hlen
    refine ⟨m1, _, m2, _, h1, k1, ?_⟩
    intro a ha0 ha1
    by_cases hz : a = 64 + p ∨ a = f ∨ ∃ i, 0 ≤ i ∧ i < 64 ∧ (a = 256 * f + i ∨
        (byteAt m1 (256 * f + i) ≠ 0 ∧ a = byteAt m1 (256 * f + i)))
    · apply mem_ext_byteAt
      rw [(k2 a).1 hz]
      rcases hz with h | h | ⟨i, hi0, hi1, h | ⟨hne, h⟩⟩
      · omega
      · rw [h, hf3]
      · omega
      · rw [hsl i hi0 hi1] at hne h
        by_cases hc : i.toNat < n.toNat ∧ i.toNat < r.length
        · rw [if_pos hc] at h
          rw [h, (hr i.toNat hc.2).2.2.1]
        · rw [if_neg hc] at hne
          exact absurd rfl hne
    · rw [(k2 a).2 hz]
      apply h6 a (by omega) (fun e => hz (Or.inr (Or.inl e)))
      intro j hj1 hj2
      refine ⟨by omega, ?_⟩
      intro e
      apply hz
      refine Or.inr (Or.inr ⟨j, by omega, by omega, Or.inr ?_⟩)
      have := (h5 j hj1 hj2).1
      have hrj := hr j hj2
      rw [this]
      exact ⟨by omega, e⟩

/-- C3 amended, on the fresh store: `new_process(3, 5)` then `kill_process(3)`. -/
theorem create_kill_restores_bitmap_witness :
    ∃ m1 out1 m2 out2, new_process initialize_mem 3 5 = some (m1, out1) ∧
      kill_process m1 3 = some (m2, out2) ∧ ∀ a, 0 ≤ a → a ≤ 63 → m2 a = initialize_mem a :=
  create_kill_restores_bitmap initialize_mem 3 5 (by decide) (by decide)
    (fun f hf1 _ _ _ i hi0 _ => by
      have h : byteAt initialize_mem (256 * f + i) =
          if 256 * f + i = 0 then 1 % 256 else byteAt (fun _ => 0) (256 * f + i) :=
        byteAt_setByte _ _ _ _
      rw [h, if_neg (by omega)]
      rfl)
    (fun _ => by decide)

/-! ## Separation of page tables -/

/-- C5: in every store reachable from `initialize_mem` by `new_process` and
`kill_process` calls with ids in `0 .. 191`, for distinct live processes `p`
and `q` (nonzero directory entries): the two page-table pages differ; every
nonzero slot (index `0 .. 63`) of either table holds a page number in `1 .. 63`
whose bitmap byte is nonzero and which is neither of the two page-table pages;
no page number occurs in a slot of both tables; and none occurs twice within
one table (0 marks an empty slot and is not a page number). -/
theorem page_tables_disjoint (m : Mem) (hr : ProcReachable m) (p q : Int)
    (hp0 : 0 ≤ p) (hp1 : p ≤ 191) (hq0 : 0 ≤ q) (hq1 : q ≤ 191) (hpq : p ≠ q)
    (hlp : byteAt m (64 + p) ≠ 0) (hlq : byteAt m (64 + q) ≠ 0) :
    byteAt m (64 + p) ≠ byteAt m (64 + q) ∧
    (∀ t i, (t = byteAt m (64 + p) ∨ t = byteAt m (64 + q)) → 0 ≤ i → i < 64 →
      byteAt m (256 * t + i) ≠ 0 →
      1 ≤ byteAt m (256 * t + i) ∧ byteAt m (256 * t + i) ≤ 63 ∧
      byteAt m (byteAt m (256 * t + i)) ≠ 0 ∧
      byteAt m (256 * t + i) ≠ byteAt m (64 + p) ∧ byteAt m (256 * t + i) ≠ byteAt m (64 + q)) ∧
    (∀ i j, 0 ≤ i → i < 64 → 0 ≤ j → j < 64 → byteAt m (256 * byteAt m (64 + p) + i) ≠ 0 →
      byteAt m (256 * byteAt m (64 + p) + i) ≠ byteAt m (256 * byteAt m (64 + q) + j)) ∧
    (∀ t i j, (t = byteAt m (64 + p) ∨ t = byteAt m (64 + q)) → 0 ≤ i → i < 64 → 0 ≤ j →
      j < 64 → i ≠ j → byteAt m (256 * t + i) ≠ 0 →
      byteAt m (256 * t + i) ≠ byteAt m (256 * t + j)) := by
  have hI := TablesInv_of_reachable m hr
  refine ⟨?_, ?_, ?_, ?_⟩
  · intro e
    exact hpq (hI.dir_inj p q hp0 hp1 hq0 hq1 hlp e)
  · rintro t i (rfl | rfl) hi0 hi1 hs
    · obtain ⟨a, b, c, d⟩ := hI.slot_used p i hp0 hp1 hlp hi0 hi1 hs
      exact ⟨a, b, c, fun e => d p hp0 hp1 e.symm, fun e => d q hq0 hq1 e.symm⟩
    · obtain ⟨a, b, c, d⟩ := hI.slot_used q i hq0 hq1 hlq hi0 hi1 hs
      exact ⟨a, b, c, fun e => d p hp0 hp1 e.symm, fun e => d q hq0 hq1 e.symm⟩
  · intro i j hi0 hi1 hj0 hj1 hs e
    exact hpq (hI.slot_inj p q i j hp0 hp1 hq0 hq1 hlp hlq hi0 hi1 hj0 hj1 hs e).1
  · rintro t i j (rfl | rfl) hi0 hi1 hj0 hj1 hij hs e
    · exact hij (hI.slot_inj p p i j hp0 hp1 hp0 hp1 hlp hlp hi0 hi1 hj0 hj1 hs e).2
    · exact hij (hI.slot_inj q q i j hq0 hq1 hq0 hq1 hlq hlq hi0 hi1 hj0 hj1 hs e).2

/-- C5 at the store reached by `new_process(0, 1)` then `new_process(1, 1)`:
process 0 has table 1 and data page 2, process 1 has table 3 and data page 4. -/
theorem page_tables_disjoint_witness :
    byteAt (setByte (setByte (setByte (setByte (setByte (setByte (setByte (setByte
      initialize_mem 1 1) 64 1) 2 1) 256 2) 3 1) 65 3) 4 1) 768 4) (64 + 0) ≠
    byteAt (setByte (setByte (setByte (setByte (setByte (setByte (setByte (setByte
      initialize_mem 1 1) 64 1) 2 1) 256 2) 3 1) 65 3) 4 1) 768 4) (64 + 1) :=
  (page_tables_disjoint _
    (ProcReachable.new_process _ _ 1 1 []
      (ProcReachable.new_process initialize_mem _ 0 1 [] ProcReachable.init (by decide)
        (by decide) rfl)
      (by decide) (by decide) rfl)
    0 1 (by decide) (by decide) (by decide) (by decide) (by decide) (by decide) (by decide)).1

/-! ## The fresh store -/

theorem mem_pageRange (x : Int) :
    ∀ (k : Nat) (a : Int), x ∈ pageRange k a ↔ (a ≤ x ∧ x < a + k) := by
  intro k
  induction k with
  | zero =>
    intro a
    simp only [pageRange, List.not_mem_nil, false_iff, Nat.cast_zero, add_zero]
    omega
  | succ k ih =>
    intro a
    simp only [pageRange, List.mem_cons, ih]
    push_cast
    omega

theorem pageRange_length : ∀ (k : Nat) (a : Int), (pageRange k a).length = k := by
  intro k
  induction k with
  | zero => intro a; rfl
  | succ k ih => intro a; simp [pageRange, ih]

theorem pageRange_getD : ∀ (k : Nat) (a : Int) (j : Nat), j < k →
    (pageRange k a).getD j 0 = a + j := by
  intro k
  induction k with
  | zero => intro a j h; omega
  | succ k ih =>
    intro a j h
    cases j with
    | zero => simp [pageRange]
    | succ j =>
      simp only [pageRange, List.getD_cons_succ]
      rw [ih (a + 1) j (by omega)]
      push_cast
      omega

theorem pageRange_drop : ∀ (k : Nat) (a : Int) (j : Nat), j ≤ k →
    (pageRange k a).drop j = pageRange (k - j) (a + j) := by
  intro k
  induction k with
  | zero =>
    intro a j h
    have : j = 0 := by omega
    subst this
    simp [pageRange]
  | succ k ih =>
    intro a j h
    cases j with
    | zero => simp
    | succ j =>
      simp only [pageRange, List.drop_succ_cons]
      rw [ih (a + 1) j (by omega)]
      have e1 : k + 1 - (j + 1) = k - j := by omega
      have e2 : a + 1 + (j : Int) = a + ((j + 1 : Nat) : Int) := by push_cast; omega
      rw [e1, e2]

theorem freeIn_eq_pageRange (m : Mem) :
    ∀ (k : Nat) (a : Int), (∀ x, a ≤ x → x < a + k → byteAt m x = 0) →
      freeIn m k a = pageRange k a := by
  intro k
  induction k with
  | zero => intro a _; rfl
  | succ k ih =>
    intro a h
    rw [freeIn_succ, if_pos (h a (le_refl _) (by push_cast; omega)),
      ih (a + 1) (fun x h1 h2 => h x (by omega) (by push_cast; omega))]
    rfl

theorem freePages_initialize_mem : freePages initialize_mem = 1 :: pageRange 62 2 :=
  freeIn_eq_pageRange initialize_mem 63 1 (fun x h1 _ => byteAt_initialize_mem x (by omega))

/-! ## Claims about failure of destruction and about address arithmetic -/

/-- C11: for a process id `p` in `0 .. 191` whose directory entry `mem[64 + p]`
is 0, `kill_process(p)` reports the failure and leaves the whole store
unchanged. -/
theorem kill_process_no_such_process (m : Mem) (p : Int) (hp0 : 0 ≤ p) (hp1 : p ≤ 191)
    (h : byteAt m (64 + p) = 0) : kill_process m p = some (m, [Msg.failed_kill p]) :=
  kill_process_zero m p hp0 hp1 h

/-- C11 on the fresh store, where no process exists: `kill_process(7)`. -/
theorem kill_process_no_such_process_witness :
    kill_process initialize_mem 7 = some (initialize_mem, [Msg.failed_kill 7]) :=
  kill_process_no_such_process initialize_mem 7 (by decide) (by decide) (by decide)

/-- C17: for a page number `0 ≤ g < 64` and an offset `0 ≤ o < 256`,
`get_address(g, o) = 256 * g + o`, which lies in `[0, 16384)`, and the
virtual-address split undoes it (`>> 8` gives `g`, `& 255` gives `o`);
conversely, for `v` in `[0, 16384)`, `get_address(v >> 8, v & 255) = v`. -/
theorem get_address_split (g o v : Int) (hg0 : 0 ≤ g) (hg1 : g < 64) (ho0 : 0 ≤ o)
    (ho1 : o < 256) (hv0 : 0 ≤ v) (hv1 : v < 16384) :
    get_address g o = 256 * g + o ∧ 0 ≤ get_address g o ∧ get_address g o < MEM_SIZE ∧
    get_address g o >>> PAGE_SHIFT = g ∧ Int.land (get_address g o) (PAGE_SIZE - 1) = o ∧
    get_address (v >>> PAGE_SHIFT) (Int.land v (PAGE_SIZE - 1)) = v := by
  have h := get_address_slot g o hg0 ho0 ho1
  have h1 := shiftRight_eq (256 * g + o) (by omega)
  have h2 := land_eq (256 * g + o) (by omega)
  have h3 := get_address_slot (v / 256) (v % 256) (by omega) (by omega) (by omega)
  rw [h, h1, h2, shiftRight_eq v hv0, land_eq v hv0, h3]
  have hM : MEM_SIZE = 16384 := rfl
  refine ⟨rfl, by omega, by omega, by omega, by omega, by omega⟩

/-- C17 at page 63, offset 255 (the last byte of the store) and `v = 16383`. -/
theorem get_address_split_witness :
    get_address 63 255 = 256 * 63 + 255 ∧ 0 ≤ get_address 63 255 ∧
    get_address 63 255 < MEM_SIZE ∧ get_address 63 255 >>> PAGE_SHIFT = 63 ∧
    Int.land (get_address 63 255) (PAGE_SIZE - 1) = 255 ∧
    get_address (16383 >>> PAGE_SHIFT) (Int.land 16383 (PAGE_SIZE - 1)) = 16383 :=
  get_address_split 63 255 16383 (by decide) (by decide) (by decide) (by decide) (by decide)
    (by decide)

/-- What `new_process(p, n)` does on the fresh store: page 1 becomes the page
table and pages `2, 3, …` the data pages, at most 62 of them. -/
theorem new_process_fresh (p n : Int) (hp0 : 0 ≤ p) (hp1 : p ≤ 191) :
    ∃ m1, new_process initialize_mem p n =
        some (m1, if n.toNat ≤ 62 then [] else [Msg.failed_data_page p 62]) ∧
      freePages m1 = (pageRange 62 2).drop n.toNat ∧
      byteAt m1 (64 + p) = 1 ∧ byteAt m1 1 = 1 ∧
      (∀ j : Nat, j < n.toNat → j < 62 → byteAt m1 (256 + j) = 2 + j ∧ byteAt m1 (2 + j) = 1) ∧
      (∀ a, a ≠ 64 + p → a ≠ 1 → (∀ j : Nat, j < n.toNat → j < 62 → a ≠ 256 + j ∧ a ≠ 2 + j) →
        m1 a = initialize_mem a) := by
  obtain ⟨m1, h1, h2, h3, h4, h5, h6⟩ :=
    new_process_cons initialize_mem p n 1 (pageRange 62 2) hp0 hp1 freePages_initialize_mem
  rw [pageRange_length] at h1 h5 h6
  refine ⟨m1, h1, h2, h3, h4, ?_, ?_⟩
  · intro j hj1 hj2
    have := h5 j hj1 hj2
    rw [pageRange_getD 62 2 j hj2] at this
    exact this
  · intro a ha1 ha2 ha3
    apply h6 a ha1 ha2
    intro j hj1 hj2
    rw [pageRange_getD 62 2 j hj2]
    exact ha3 j hj1 hj2

/-- The store after `new_process(1, 63)` on the fresh store, and after the
following `kill_process(1)`. -/
theorem exhaust_then_kill :
    ∃ m1 m2, new_process initialize_mem 1 63 = some (m1, [Msg.failed_data_page 1 62]) ∧
      freePages m1 = [] ∧ byteAt m1 0 = 1 ∧ byteAt m1 66 = 0 ∧ byteAt m1 (64 + 1) = 1 ∧
      (∀ i, 0 ≤ i → i < 64 → (byteAt m1 (256 * 1 + i) ≠ 0 ↔ i < 62)) ∧
      (∀ i, 0 ≤ i → i < 62 → byteAt m1 (256 * 1 + i) = 2 + i) ∧
      kill_process m1 1 = some (m2, []) ∧
      byteAt m2 0 = 1 ∧ (∀ i, 1 ≤ i → i ≤ 63 → byteAt m2 i = 0) := by
  obtain ⟨m1, h1, h2, h3, h4, h5, h6⟩ := new_process_fresh 1 63 (by decide) (by decide)
  have e : (63 : Int).toNat = 63 := rfl
  rw [e] at h1 h2 h5 h6
  rw [if_neg (by omega)] at h1
  have hslot : ∀ i, 0 ≤ i → i < 62 → byteAt m1 (256 * 1 + i) = 2 + i := by
    intro i hi0 hi1
    have := (h5 i.toNat (by omega) (by omega)).1
    rw [Int.toNat_of_nonneg hi0] at this
    exact this
  have hhigh : ∀ i, 62 ≤ i → i < 64 → byteAt m1 (256 * 1 + i) = 0 := by
    intro i hi0 hi1
    unfold byteAt
    rw [h6 (256 * 1 + i) (by omega) (by omega) (fun j _ hj => ⟨by omega, by omega⟩)]
    exact byteAt_initialize_mem _ (by omega)
  have h0 : byteAt m1 0 = 1 := by
    unfold byteAt
    rw [h6 0 (by omega) (by omega) (fun j _ hj => ⟨by omega, by omega⟩)]
    decide
  obtain ⟨m2, k1, k2⟩ := kill_process_spec m1 1 1 (by decide) (by decide) h3 (by decide)
    (by decide)
  refine ⟨m1, m2, h1, ?_, h0, ?_, h3, ?_, hslot, k1, ?_, ?_⟩
  · rw [h2]; rfl
  · unfold byteAt
    rw [h6 66 (by omega) (by omega) (fun j _ hj => ⟨by omega, by omega⟩)]
    decide
  · intro i hi0 hi1
    by_cases hc : i < 62
    · rw [hslot i hi0 hc]
      exact ⟨fun _ => hc, fun _ => by omega⟩
    · rw [hhigh i (by omega) hi1]
      exact ⟨fun h => absurd rfl h, fun h => absurd h hc⟩
  · have : m2 0 = m1 0 := by
      apply (k2 0).2
      rintro (h | h | ⟨i, _, _, h | ⟨hne, h⟩⟩)
      · omega
      · omega
      · omega
      · exact hne h.symm
    unfold byteAt
    rw [this]
    exact h0
  · intro i hi0 hi1
    apply (k2 i).1
    by_cases e1 : i = 1
    · exact Or.inr (Or.inl e1)
    · refine Or.inr (Or.inr ⟨i - 2, by omega, by omega, Or.inr ?_⟩)
      rw [hslot (i - 2) (by omega) (by omega)]
      exact ⟨by omega, by omega⟩

theorem pageRange_append : ∀ (a b : Nat) (s : Int),
    pageRange (a + b) s = pageRange a s ++ pageRange b (s + a) := by
  intro a
  induction a with
  | zero => intro b s; simp [pageRange]
  | succ a ih =>
    intro b s
    have e : a + 1 + b = (a + b) + 1 := by omega
    have e2 : s + 1 + (a : Int) = s + ((a + 1 : Nat) : Int) := by push_cast; omega
    rw [e]
    simp only [pageRange, List.cons_append, ih b (s + 1), e2]

theorem pagesFreed_exhaust (m1 m2 : Mem) (h1 : ∀ i, 0 ≤ i → i ≤ 63 → byteAt m1 i ≠ 0)
    (h2 : byteAt m2 0 = 1) (h3 : ∀ i, 1 ≤ i → i ≤ 63 → byteAt m2 i = 0) :
    pagesFreed m1 m2 = pageRange 63 1 := by
  have e : pageRange 64 0 = 0 :: pageRange 63 1 := rfl
  unfold pagesFreed
  rw [e, List.filter_cons_of_neg, List.filter_eq_self]
  · intro x hx
    rw [mem_pageRange] at hx
    exact decide_eq_true ⟨h1 x (by omega) (by omega), h3 x hx.1 (by omega)⟩
  · rw [decide_eq_true_eq]
    rintro ⟨_, h⟩
    rw [h2] at h
    omega

theorem mappedSlots_exhaust (m1 : Mem)
    (h : ∀ i, 0 ≤ i → i < 64 → (byteAt m1 (256 * 1 + i) ≠ 0 ↔ i < 62)) :
    mappedSlots m1 1 = pageRange 62 0 := by
  have e : pageRange 64 0 = pageRange 62 0 ++ pageRange 2 (0 + (62 : Nat)) :=
    pageRange_append 62 2 0
  unfold mappedSlots
  rw [e, List.filter_append, List.filter_eq_self.2, List.filter_eq_nil_iff.2, List.append_nil]
  · intro x hx
    rw [mem_pageRange] at hx
    rw [decide_eq_true_eq]
    intro hne
    have := (h x (by omega) (by omega)).1 hne
    omega
  · intro x hx
    rw [mem_pageRange] at hx
    exact decide_eq_true ((h x hx.1 (by omega)).2 (by omega))

/-- C12: from the fresh store, `new_process(1, 63)` leaves every bitmap byte
`mem[0 .. 63]` nonzero; a following `allocate_page` returns `-1`; and a
following `new_process(2, 1)` reports the page-table allocation failure, leaves
the store unchanged and leaves `mem[66] = 0`. -/
theorem exhaustion_scenario :
    ∃ m1 out, new_process initialize_mem 1 63 = some (m1, out) ∧
      (∀ i, 0 ≤ i → i ≤ 63 → byteAt m1 i ≠ 0) ∧
      allocate_page m1 = some (m1, -1) ∧
      new_process m1 2 1 = some (m1, [Msg.failed_page_table 2]) ∧
      byteAt m1 (64 + 2) = 0 := by
  obtain ⟨m1, _, h1, hF, h0, h66, _, _, _, _, _, _⟩ := exhaust_then_kill
  refine ⟨m1, _, h1, ?_, allocate_page_nil m1 hF, new_process_nil m1 2 1 hF, h66⟩
  intro i hi0 hi1
  by_cases e : i = 0
  · rw [e, h0]; decide
  · exact (freePages_eq_nil m1).1 hF i (by omega) hi1

/-- C13 as stated fails: after `new_process(1, 63)` on the fresh store (which
can only take page 1 as table and the 62 pages `2 .. 63` as data pages),
`kill_process(1)` turns 63 bitmap bytes from used to free, not 64, and the page
table of process 1 records 62 data pages, not 63. -/
theorem kill_after_exhaustion_counterexample :
    ∃ m1 m2, new_process initialize_mem 1 63 = some (m1, [Msg.failed_data_page 1 62]) ∧
      kill_process m1 1 = some (m2, []) ∧
      (pagesFreed m1 m2).length = 63 ∧ (mappedSlots m1 (byteAt m1 (64 + 1))).length = 62 := by
  obtain ⟨m1, m2, h1, hF, h0, _, hd, hs, _, k1, k0, kf⟩ := exhaust_then_kill
  refine ⟨m1, m2, h1, k1, ?_, ?_⟩
  · rw [pagesFreed_exhaust m1 m2 ?_ k0 kf]
    · rfl
    · intro i hi0 hi1
      by_cases e : i = 0
      · rw [e, h0]; decide
      · exact (freePages_eq_nil m1).1 hF i (by omega) hi1
  · rw [hd, mappedSlots_exhaust m1 hs]
    rfl

/-- C13, amended: after `new_process(1, 63)` on the fresh store (which reports
the data-page failure at index 62), `kill_process(1)` frees 63 pages, namely 62
data pages and 1 page-table page: exactly the bitmap bytes `mem[1 .. 63]` go
from used to free, page 1 being the page table and pages `2 .. 63` the data
pages recorded in slots `0 .. 61` of process 1's page table. -/
theorem kill_after_exhaustion :
    ∃ m1 m2, new_process initialize_mem 1 63 = some (m1, [Msg.failed_data_page 1 62]) ∧
      kill_process m1 1 = some (m2, []) ∧
      pagesFreed m1 m2 = pageRange 63 1 ∧ byteAt m1 (64 + 1) = 1 ∧
      mappedSlots m1 1 = pageRange 62 0 ∧
      ∀ i, 0 ≤ i → i < 62 → byteAt m1 (256 * 1 + i) = 2 + i := by
  obtain ⟨m1, m2, h1, hF, h0, _, hd, hs, hv, k1, k0, kf⟩ := exhaust_then_kill
  refine ⟨m1, m2, h1, k1, pagesFreed_exhaust m1 m2 ?_ k0 kf, hd, mappedSlots_exhaust m1 hs, hv⟩
  intro i hi0 hi1
  by_cases e : i = 0
  · rw [e, h0]; decide
  · exact (freePages_eq_nil m1).1 hF i (by omega) hi1


/-- A store followed by a load of the same virtual address, when the byte
written is neither the directory entry nor the page-table slot used. -/
theorem store_then_load (m : Mem) (p v x : Int) (hp0 : 0 ≤ p) (hp1 : p ≤ 191)
    (hv : 0 ≤ v) (hs : get_address (byteAt m (64 + p)) (v / 256) < 16384)
    (hph : 256 * byteAt m (get_address (byteAt m (64 + p)) (v / 256)) + v % 256 < 16384)
    (hdir : 256 * byteAt m (get_address (byteAt m (64 + p)) (v / 256)) + v % 256 ≠ 64 + p)
    (hslot : 256 * byteAt m (get_address (byteAt m (64 + p)) (v / 256)) + v % 256 ≠
      get_address (byteAt m (64 + p)) (v / 256)) :
    store_value m p v x =
      some (setByte m (256 * byteAt m (get_address (byteAt m (64 + p)) (v / 256)) + v % 256) x,
        [Msg.store p v (256 * byteAt m (get_address (byteAt m (64 + p)) (v / 256)) + v % 256) x]) ∧
    load_value
        (setByte m (256 * byteAt m (get_address (byteAt m (64 + p)) (v / 256)) + v % 256) x) p v =
      some (x % 256,
        [Msg.load p v (256 * byteAt m (get_address (byteAt m (64 + p)) (v / 256)) + v % 256)
          (x % 256)]) := by
  refine ⟨store_value_spec m p v x hp0 hp1 hv hs hph, ?_⟩
  generalize hA : 256 * byteAt m (get_address (byteAt m (64 + p)) (v / 256)) + v % 256 = A
    at hph hdir hslot
  have e1 : byteAt (setByte m A x) (64 + p) = byteAt m (64 + p) := by
    rw [byteAt_setByte, if_neg (Ne.symm hdir)]
  have e2 : byteAt (setByte m A x) (get_address (byteAt m (64 + p)) (v / 256)) =
      byteAt m (get_address (byteAt m (64 + p)) (v / 256)) := by
    rw [byteAt_setByte, if_neg (Ne.symm hslot)]
  have e3 : byteAt (setByte m A x) A = x % 256 := by
    rw [byteAt_setByte, if_pos rfl]
  have h := load_value_spec (setByte m A x) p v hp0 hp1 hv (by rw [e1]; exact hs)
    (by rw [e1, e2, hA]; exact hph)
  rw [e1, e2, hA, e3] at h
  exact h

/-- C14: from the fresh store, for `p` in `0 .. 191`, `1 ≤ n ≤ 62`,
`0 ≤ v < 256 * n` and any `x`: after `new_process(p, n)`,
`store_value(p, v, x)` writes `x mod 256` at the physical address
`256 * (2 + v div 256) + v mod 256` and nowhere else, and `load_value(p, v)`
then returns `x mod 256`. -/
theorem fresh_process_store_load (p n v x : Int) (hp0 : 0 ≤ p) (hp1 : p ≤ 191) (hn0 : 1 ≤ n)
    (hn1 : n ≤ 62) (hv0 : 0 ≤ v) (hv1 : v < 256 * n) :
    ∃ m1 m2, new_process initialize_mem p n = some (m1, []) ∧
      store_value m1 p v x = some (m2, [Msg.store p v (256 * (2 + v / 256) + v % 256) x]) ∧
      byteAt m2 (256 * (2 + v / 256) + v % 256) = x % 256 ∧
      (∀ a, a ≠ 256 * (2 + v / 256) + v % 256 → m2 a = m1 a) ∧
      load_value m2 p v = some (x % 256, [Msg.load p v (256 * (2 + v / 256) + v % 256) (x % 256)]) := by
  obtain ⟨m1, h1, _, h3, _, h5, _⟩ := new_process_fresh p n hp0 hp1
  rw [if_pos (by omega)] at h1
  have hsv : byteAt m1 (256 + v / 256) = 2 + v / 256 := by
    have := (h5 (v / 256).toNat (by omega) (by omega)).1
    rw [Int.toNat_of_nonneg (by omega)] at this
    exact this
  have hS : get_address (byteAt m1 (64 + p)) (v / 256) = 256 + v / 256 := by
    rw [h3, get_address_slot 1 (v / 256) (by omega) (by omega) (by omega)]
    omega
  have hA : 256 * byteAt m1 (get_address (byteAt m1 (64 + p)) (v / 256)) + v % 256 =
      256 * (2 + v / 256) + v % 256 := by
    rw [hS, hsv]
  obtain ⟨k1, k2⟩ := store_then_load m1 p v x hp0 hp1 hv0 (by rw [hS]; omega)
    (by rw [hA]; omega) (by rw [hA]; omega) (by rw [hA, hS]; omega)
  rw [hA] at k1 k2
  refine ⟨m1, _, h1, k1, ?_, fun a ha => setByte_other _ _ _ _ ha, k2⟩
  rw [byteAt_setByte, if_pos rfl]

/-- C14 at `p = 0`, `n = 2`, `v = 0`, `x = 42`: the byte 42 is written at
address 512 and the load returns 42. -/
theorem fresh_process_store_load_witness :
    ∃ m1 m2, new_process initialize_mem 0 2 = some (m1, []) ∧
      store_value m1 0 0 42 = some (m2, [Msg.store 0 0 512 42]) ∧
      byteAt m2 512 = 42 ∧ (∀ a, a ≠ 512 → m2 a = m1 a) ∧
      load_value m2 0 0 = some (42, [Msg.load 0 0 512 42]) :=
  fresh_process_store_load 0 2 0 42 (by decide) (by decide) (by decide) (by decide) (by decide)
    (by decide)


/-- In a store reachable by creation and destruction only, a free page has its
64 page-table slots all 0. -/
theorem free_page_clean (m : Mem) (hr : ProcReachable m) (f : Int) (hf0 : 1 ≤ f) (hf1 : f ≤ 63)
    (hf : byteAt m f = 0) : ∀ i, 0 ≤ i → i < 64 → byteAt m (256 * f + i) = 0 := by
  intro i hi0 hi1
  by_contra hne
  exact ((TablesInv_of_reachable m hr).clean f i hf0 hf1 hi0 hi1 hne).1 hf

/-- Creation followed by destruction restores the whole store, when the
process did not exist and the lowest free page (if any) has clean slots. -/
theorem new_kill_restores (m : Mem) (p n : Int) (hp0 : 0 ≤ p) (hp1 : p ≤ 191)
    (hdir : byteAt m (64 + p) = 0)
    (hclean : ∀ f r, freePages m = f :: r → ∀ i, 0 ≤ i → i < 64 → byteAt m (256 * f + i) = 0) :
    ∃ m1 out1 out2, new_process m p n = some (m1, out1) ∧ kill_process m1 p = some (m, out2) := by
  cases hF : freePages m with
  | nil =>
    exact ⟨m, _, _, new_process_nil m p n hF, kill_process_zero m p hp0 hp1 hdir⟩
  | cons f r =>
    obtain ⟨hf1, hf2, hf3, hf4⟩ := freePages_head m f r hF
    obtain ⟨m1, h1, _, h3, _, h5, h6⟩ := new_process_cons m p n f r hp0 hp1 hF
    obtain ⟨m2, k1, k2⟩ := kill_process_spec m1 p f hp0 hp1 h3 hf1 hf2
    have hsl := new_process_slots m m1 p f r n.toNat hp1 hf1 hF (hclean f r hF) h5 h6
    have hr := freePages_tail_mem m f r hF
    have hlen := freePages_length_le m
    rw [hF] at hlen
    simp only [List.length_cons] at hlen
    have hm : m2 = m := by
      funext a
      by_cases hz : a = 64 + p ∨ a = f ∨ ∃ i, 0 ≤ i ∧ i < 64 ∧ (a = 256 * f + i ∨
          (byteAt m1 (256 * f + i) ≠ 0 ∧ a = byteAt m1 (256 * f + i)))
      · apply mem_ext_byteAt
        rw [(k2 a).1 hz]
        rcases hz with h | h | ⟨i, hi0, hi1, h | ⟨hne, h⟩⟩
        · rw [h, hdir]
        · rw [h, hf3]
        · rw [h, hclean f r hF i hi0 hi1]
        · rw [hsl i hi0 hi1] at hne h
          by_cases hc : i.toNat < n.toNat ∧ i.toNat < r.length
          · rw [if_pos hc] at h
            rw [h, (hr i.toNat hc.2).2.2.1]
          · rw [if_neg hc] at hne
            exact absurd rfl hne
      · rw [(k2 a).2 hz]
        apply h6 a (fun e => hz (Or.inl e)) (fun e => hz (Or.inr (Or.inl e)))
        intro j hj1 hj2
        constructor
        · intro e
          exact hz (Or.inr (Or.inr ⟨j, by omega, by omega, Or.inl e⟩))
        · intro e
          apply hz
          refine Or.inr (Or.inr ⟨j, by omega, by omega, Or.inr ?_⟩)
          have := (h5 j hj1 hj2).1
          have hrj := hr j hj2
          rw [this]
          exact ⟨by omega, e⟩
    rw [hm] at k1
    exact ⟨m1, _, _, h1, k1⟩

/-- C18: in every store reachable from `initialize_mem` by `new_process` and
`kill_process` calls with ids in `0 .. 191`, for every `p` in `0 .. 191` whose
directory entry is 0 and every page count `n` (also one that exhausts memory
part-way), `new_process(p, n)` followed by `kill_process(p)` restores the
entire store to what it was before `new_process`. -/
theorem create_kill_restores_store (m : Mem) (hr : ProcReachable m) (p n : Int)
    (hp0 : 0 ≤ p) (hp1 : p ≤ 191) (hdir : byteAt m (64 + p) = 0) :
    ∃ m1 out1 out2, new_process m p n = some (m1, out1) ∧ kill_process m1 p = some (m, out2) :=
  new_kill_restores m p n hp0 hp1 hdir (fun f r hF =>
    free_page_clean m hr f (freePages_head m f r hF).1 (freePages_head m f r hF).2.1
      (freePages_head m f r hF).2.2.1)

/-- C18 on the fresh store with a page count that exhausts memory part-way:
`new_process(0, 100)` then `kill_process(0)`. -/
theorem create_kill_restores_store_witness :
    ∃ m1 out1 out2, new_process initialize_mem 0 100 = some (m1, out1) ∧
      kill_process m1 0 = some (initialize_mem, out2) :=
  create_kill_restores_store initialize_mem ProcReachable.init 0 100 (by decide) (by decide)
    (by decide)

/-- C16 as stated fails: on the fresh store `store_value(0, 5, 9)` translates
through `mem[0] = 1` and writes the byte 9 at address 261, inside the free page
1; `new_process(0, 0)` then takes page 1 as page table without clearing it, so
slot 5 is nonzero although `n = 0` pages were mapped. -/
theorem new_process_mapped_counterexample :
    ∃ m0 m1, store_value initialize_mem 0 5 9 = some (m0, [Msg.store 0 5 261 9]) ∧
      0 + 1 ≤ (freePages m0).length ∧
      new_process m0 0 0 = some (m1, []) ∧
      byteAt m1 (256 * byteAt m1 (64 + 0) + 5) ≠ 0 ∧ ¬ ((5 : Int) < 0) :=
  ⟨_, _, rfl, by decide, rfl, by decide, by decide⟩

/-- C16, amended: for every store in which the lowest free page in `1 .. 63`
has its 64 page-table slots all 0 (whatever calls, `store_value` included,
produced it; `free_page_clean` shows that every store reached without
`store_value` is such), for `p` in `0 .. 191` and `n` with at least `n + 1`
free pages, after `new_process(p, n)` slot `i` (in `0 .. 63`) of the page
table of `p` is nonzero exactly when `i < n`. -/
theorem new_process_mapped (m : Mem) (p : Int) (n : Nat)
    (hp0 : 0 ≤ p) (hp1 : p ≤ 191) (hn : n + 1 ≤ (freePages m).length)
    (hclean : ∀ f, 1 ≤ f → f ≤ 63 → byteAt m f = 0 → (∀ j, 1 ≤ j → j < f → byteAt m j ≠ 0) →
      ∀ i, 0 ≤ i → i < 64 → byteAt m (256 * f + i) = 0) :
    ∃ m', new_process m p n = some (m', []) ∧
      ∀ i, 0 ≤ i → i < 64 → (byteAt m' (256 * byteAt m' (64 + p) + i) ≠ 0 ↔ i < n) := by
  cases hF : freePages m with
  | nil => rw [hF] at hn; simp at hn
  | cons f r =>
    rw [hF] at hn
    simp only [List.length_cons] at hn
    obtain ⟨hf1, hf2, hf3, hf4⟩ := freePages_head m f r hF
    obtain ⟨m', h1, _, h3, _, h5, h6⟩ := new_process_cons m p n f r hp0 hp1 hF
    have hsl := new_process_slots m m' p f r (n : Int).toNat hp1 hf1 hF
      (hclean f hf1 hf2 hf3 hf4) h5 h6
    have hr' := freePages_tail_mem m f r hF
    simp only [Int.toNat_ofNat] at h1 hsl
    rw [if_pos (by omega)] at h1
    refine ⟨m', h1, ?_⟩
    intro i hi0 hi1
    rw [h3, hsl i hi0 hi1]
    by_cases hc : i.toNat < n ∧ i.toNat < r.length
    · rw [if_pos hc]
      have := hr' i.toNat hc.2
      constructor
      · intro _; omega
      · intro _; omega
    · rw [if_neg hc]
      constructor
      · intro h; exact absurd rfl h
      · intro h; exfalso; apply hc; omega

/-- C16 amended, at the store left by `new_process(0, 1)` followed by
`store_value(0, 100, 9)` on the fresh store (the byte 9 sits at address 612 in
the data page 2 of process 0; the lowest free page is 3): `new_process(7, 3)`. -/
theorem new_process_mapped_witness :
    ∃ m', new_process (setByte (setByte (setByte (setByte (setByte initialize_mem 1 1) 64 1)
        2 1) 256 2) 612 9) 7 (3 : Nat) = some (m', []) ∧
      ∀ i, 0 ≤ i → i < 64 → (byteAt m' (256 * byteAt m' (64 + 7) + i) ≠ 0 ↔ i < (3 : Nat)) :=
  new_process_mapped (setByte (setByte (setByte (setByte (setByte initialize_mem 1 1) 64 1)
      2 1) 256 2) 612 9) 7 3 (by decide) (by decide) (by decide)
    (fun f hf0 hf1 hfz hlow i hi0 hi1 => by
      have h3 : byteAt (setByte (setByte (setByte (setByte (setByte initialize_mem 1 1) 64 1)
          2 1) 256 2) 612 9) 3 = 0 := by decide
      have hf : f = 3 := by
        by_contra hne
        rcases lt_or_gt_of_ne hne with hlt | hgt
        · have h12 : f = 1 ∨ f = 2 := by omega
          rcases h12 with e | e
          · rw [e] at hfz; exact absurd hfz (by decide)
          · rw [e] at hfz; exact absurd hfz (by decide)
        · exact hlow 3 (by decide) hgt h3
      subst hf
      rw [byteAt_setByte, if_neg (by omega), byteAt_setByte, if_neg (by omega), byteAt_setByte,
        if_neg (by omega), byteAt_setByte, if_neg (by omega), byteAt_setByte, if_neg (by omega)]
      exact byteAt_initialize_mem _ (by omega))

/-! ## Page 0 and the bitmap -/

theorem mem_load_none (m : Mem) (a : Int) (h : 16384 ≤ a) : mem_load m a = none := by
  unfold mem_load MEM_SIZE
  rw [if_neg (by omega)]

theorem allocate_page_zero (m m' : Mem) (r : Int) (h : allocate_page m = some (m', r)) :
    m' 0 = m 0 := by
  cases hF : freePages m with
  | nil =>
    rw [allocate_page_nil m hF] at h
    injection h with h
    have hm : m = m' := congrArg Prod.fst h
    rw [← hm]
  | cons f r' =>
    rw [allocate_page_cons m f r' hF] at h
    injection h with h
    have hm : setByte m f 1 = m' := congrArg Prod.fst h
    rw [← hm]
    exact setByte_other m f 1 0 (by have := (freePages_head m f r' hF).1; omega)

theorem new_process_zero (m m' : Mem) (p n : Int) (out : List Msg) (hp0 : 0 ≤ p)
    (hp1 : p ≤ 191) (h : new_process m p n = some (m', out)) : m' 0 = m 0 := by
  cases hF : freePages m with
  | nil =>
    rw [new_process_nil m p n hF] at h
    injection h with h
    have hm : m = m' := congrArg Prod.fst h
    rw [← hm]
  | cons f r =>
    obtain ⟨m1, h1, _, _, _, _, h6⟩ := new_process_cons m p n f r hp0 hp1 hF
    rw [h1] at h
    injection h with h
    have hm : m1 = m' := congrArg Prod.fst h
    rw [← hm]
    have hf := (freePages_head m f r hF).1
    apply h6 0 (by omega) (by omega)
    intro j _ hj
    have := freePages_tail_mem m f r hF j hj
    constructor <;> omega

theorem kill_process_loop_none (t : Int) (k : Nat) (i : Int) (m : Mem)
    (h : mem_load m (get_address t i) = none) : kill_process_loop t (k + 1) i m = none := by
  simp only [kill_process_loop, h, Option.bind_eq_bind, Option.none_bind]

theorem kill_process_out_of_bounds (m : Mem) (p : Int) (hp0 : 0 ≤ p) (hp1 : p ≤ 191)
    (ht : 64 ≤ byteAt m (64 + p)) : kill_process m p = none := by
  have hga : get_address 0 (PTP_OFFSET + p) = 64 + p := get_address_zero (64 + p) (by omega)
  have hne : byteAt m (64 + p) ≠ 0 := by omega
  have hpc : PAGE_COUNT.toNat = 63 + 1 := rfl
  have hsl : get_address (byteAt m (64 + p)) 0 = 256 * byteAt m (64 + p) + 0 :=
    get_address_slot _ 0 (by omega) (le_refl _) (by decide)
  have hl := kill_process_loop_none (byteAt m (64 + p)) 63 0 (setByte m (64 + p) 0)
    (by rw [hsl]; exact mem_load_none _ _ (by omega))
  simp only [kill_process, get_page_table, hga, mem_load_eq m (64 + p) (by omega) (by omega),
    Option.bind_eq_bind, Option.some_bind, if_neg hne,
    mem_store_eq m (64 + p) 0 (by omega) (by omega), hpc, hl, Option.none_bind]

theorem kill_process_zero_byte (m m' : Mem) (p : Int) (out : List Msg) (hp0 : 0 ≤ p)
    (hp1 : p ≤ 191) (h : kill_process m p = some (m', out)) : m' 0 = m 0 := by
  by_cases hz : byteAt m (64 + p) = 0
  · rw [kill_process_zero m p hp0 hp1 hz] at h
    injection h with h
    have hm : m = m' := congrArg Prod.fst h
    rw [← hm]
  · by_cases hb : 64 ≤ byteAt m (64 + p)
    · rw [kill_process_out_of_bounds m p hp0 hp1 hb] at h
      exact absurd h (by simp)
    · have h0 := byteAt_nonneg m (64 + p)
      obtain ⟨m2, k1, k2⟩ := kill_process_spec m p (byteAt m (64 + p)) hp0 hp1 rfl (by omega)
        (by omega)
      rw [k1] at h
      injection h with h
      have hm : m2 = m' := congrArg Prod.fst h
      rw [← hm]
      apply (k2 0).2
      rintro (h | h | ⟨i, _, _, h | ⟨hne, h⟩⟩)
      · omega
      · omega
      · omega
      · exact hne h.symm

theorem mem_store_some (m m' : Mem) (a v : Int) (h : mem_store m a v = some m') :
    m' = setByte m a v := by
  unfold mem_store at h
  split at h
  · injection h with h
    exact h.symm
  · exact absurd h (by simp)

/-- A `store_value` call that returns has written its value at the address it
prints and nowhere else. -/
theorem store_value_some (m m' : Mem) (p v x addr : Int)
    (h : store_value m p v x = some (m', [Msg.store p v addr x])) : m' = setByte m addr x := by
  simp only [store_value, Option.bind_eq_bind, Option.bind_eq_some, Option.pure_def,
    Option.some.injEq, Prod.mk.injEq, List.cons.injEq, Msg.store.injEq, and_true, true_and]
    at h
  obtain ⟨t, _, s, _, m1, hm1, hmm, hout⟩ := h
  rw [← hmm, ← hout]
  exact mem_store_some m m1 _ x hm1

/-! ## Claims about page 0, isolation and leaked pages -/

/-- C15 as stated fails: on the fresh store `store_value(0, 512, 0)` translates
through the directory entry `mem[64] = 0` and the byte `mem[2] = 0` to the
physical address 0 and writes 0 there, so page 0 is marked free by an
operation that is neither the allocator nor the deallocator. -/
theorem page_zero_store_counterexample :
    ∃ m', store_value initialize_mem 0 512 0 = some (m', [Msg.store 0 512 0 0]) ∧
      byteAt initialize_mem 0 = 1 ∧ byteAt m' 0 = 0 :=
  ⟨_, rfl, by decide, by decide⟩

/-- C15, amended: in every store reachable from `initialize_mem` by
`allocate_page`, `new_process`, `kill_process` and `load_value` calls and by
`store_value` calls whose physical address is at least 64 (ids in `0 .. 191`,
all accesses inside the store), the bitmap byte `mem[0]` is nonzero, so page 0
is never freed; and such a `store_value` call changes no bitmap byte
`mem[0 .. 63]`. -/
theorem page_zero_stays_used (m : Mem) (hr : BitmapSafeReachable m) :
    byteAt m 0 ≠ 0 ∧
    ∀ p v x addr m', store_value m p v x = some (m', [Msg.store p v addr x]) → 64 ≤ addr →
      ∀ a, 0 ≤ a → a ≤ 63 → m' a = m a := by
  constructor
  · have key : byteAt m 0 = 1 := by
      induction hr with
      | init => decide
      | allocate_page m m' r _ h ih =>
        unfold byteAt at ih ⊢
        rw [allocate_page_zero m m' r h]
        exact ih
      | new_process m m' p n out _ hp0 hp1 h ih =>
        unfold byteAt at ih ⊢
        rw [new_process_zero m m' p n out hp0 hp1 h]
        exact ih
      | kill_process m m' p out _ hp0 hp1 h ih =>
        unfold byteAt at ih ⊢
        rw [kill_process_zero_byte m m' p out hp0 hp1 h]
        exact ih
      | store_value m m' p v x addr _ _ _ h ha ih =>
        rw [store_value_some m m' p v x addr h, byteAt_setByte, if_neg (by omega)]
        exact ih
      | load_value m p v r _ _ _ _ ih => exact ih
    rw [key]
    decide
  · intro p v x addr m' h ha a ha0 ha1
    rw [store_value_some m m' p v x addr h]
    exact setByte_other _ _ _ _ (by omega)

/-- C15 amended, at the store reached by `store_value(0, 5, 9)` on the fresh
store (physical address 261). -/
theorem page_zero_stays_used_witness :
    byteAt (setByte initialize_mem 261 9) 0 ≠ 0 ∧
    ∀ p v x addr m', store_value (setByte initialize_mem 261 9) p v x =
        some (m', [Msg.store p v addr x]) → 64 ≤ addr →
      ∀ a, 0 ≤ a → a ≤ 63 → m' a = setByte initialize_mem 261 9 a :=
  page_zero_stays_used (setByte initialize_mem 261 9)
    (BitmapSafeReachable.store_value initialize_mem _ 0 5 9 261 BitmapSafeReachable.init
      (by decide) (by decide) rfl (by decide))

/-- C19: in every store reachable from `initialize_mem` by `new_process` and
`kill_process` calls with ids in `0 .. 191`, for distinct live processes `p`
and `q`, an address `v ≥ 0` whose virtual page `v >> 8 < 64` has a nonzero slot
in the table of `p`, an address `w ≥ 0` likewise for `q`, and any `x`:
`store_value(p, v, x)` returns, changes no byte of page 0, changes no byte of
slots `0 .. 63` of any live page table, and `load_value(q, w)` returns the same
result after it as before it. -/
theorem store_value_isolated (m : Mem) (hr : ProcReachable m) (p q v w x : Int)
    (hp0 : 0 ≤ p) (hp1 : p ≤ 191) (hq0 : 0 ≤ q) (hq1 : q ≤ 191) (hpq : p ≠ q)
    (hlp : byteAt m (64 + p) ≠ 0) (hlq : byteAt m (64 + q) ≠ 0)
    (hv0 : 0 ≤ v) (hv1 : v >>> PAGE_SHIFT < 64)
    (hvs : byteAt m (256 * byteAt m (64 + p) + (v >>> PAGE_SHIFT)) ≠ 0)
    (hw0 : 0 ≤ w) (hw1 : w >>> PAGE_SHIFT < 64)
    (hws : byteAt m (256 * byteAt m (64 + q) + (w >>> PAGE_SHIFT)) ≠ 0) :
    ∃ m' out r, store_value m p v x = some (m', out) ∧
      (∀ a, 0 ≤ a → a < 256 → m' a = m a) ∧
      (∀ q' j, 0 ≤ q' → q' ≤ 191 → byteAt m (64 + q') ≠ 0 → 0 ≤ j → j < 64 →
        m' (256 * byteAt m (64 + q') + j) = m (256 * byteAt m (64 + q') + j)) ∧
      load_value m q w = some r ∧ load_value m' q w = some r := by
  have hI := TablesInv_of_reachable m hr
  rw [shiftRight_eq v hv0] at hv1 hvs
  rw [shiftRight_eq w hw0] at hw1 hws
  obtain ⟨tp0, tp1, _⟩ := hI.dir_used p hp0 hp1 hlp
  obtain ⟨tq0, tq1, _⟩ := hI.dir_used q hq0 hq1 hlq
  obtain ⟨sp0, sp1, _, spd⟩ := hI.slot_used p (v / 256) hp0 hp1 hlp (by omega) hv1 hvs
  obtain ⟨sq0, sq1, _, _⟩ := hI.slot_used q (w / 256) hq0 hq1 hlq (by omega) hw1 hws
  have hSp : get_address (byteAt m (64 + p)) (v / 256) = 256 * byteAt m (64 + p) + v / 256 :=
    get_address_slot _ _ (by omega) (by omega) (by omega)
  have hSq : get_address (byteAt m (64 + q)) (w / 256) = 256 * byteAt m (64 + q) + w / 256 :=
    get_address_slot _ _ (by omega) (by omega) (by omega)
  have hst := store_value_spec m p v x hp0 hp1 hv0 (by rw [hSp]; omega) (by rw [hSp]; omega)
  have hld := load_value_spec m q w hq0 hq1 hw0 (by rw [hSq]; omega) (by rw [hSq]; omega)
  rw [hSp] at hst
  rw [hSq] at hld
  generalize hA : 256 * byteAt m (256 * byteAt m (64 + p) + v / 256) + v % 256 = A at hst
  -- the written address is in a data page: not page 0, not a live page table
  have hA0 : 256 ≤ A := by omega
  have hAt : ∀ q' j, 0 ≤ q' → q' ≤ 191 → byteAt m (64 + q') ≠ 0 → 0 ≤ j → j < 64 →
      256 * byteAt m (64 + q') + j ≠ A := by
    intro q' j hq0' hq1' _ hj0 hj1 e
    apply spd q' hq0' hq1'
    omega
  have hAB : 256 * byteAt m (256 * byteAt m (64 + q) + w / 256) + w % 256 ≠ A := by
    intro e
    have hs : byteAt m (256 * byteAt m (64 + p) + v / 256) =
        byteAt m (256 * byteAt m (64 + q) + w / 256) := by omega
    exact hpq (hI.slot_inj p q (v / 256) (w / 256) hp0 hp1 hq0 hq1 hlp hlq (by omega) hv1
      (by omega) hw1 hvs hs).1
  have e1 : byteAt (setByte m A x) (64 + q) = byteAt m (64 + q) := by
    rw [byteAt_setByte, if_neg (by omega)]
  have e2 : byteAt (setByte m A x) (256 * byteAt m (64 + q) + w / 256) =
      byteAt m (256 * byteAt m (64 + q) + w / 256) := by
    rw [byteAt_setByte, if_neg (hAt q (w / 256) hq0 hq1 hlq (by omega) hw1)]
  have e3 : byteAt (setByte m A x)
      (256 * byteAt m (256 * byteAt m (64 + q) + w / 256) + w % 256) =
      byteAt m (256 * byteAt m (256 * byteAt m (64 + q) + w / 256) + w % 256) := by
    rw [byteAt_setByte, if_neg hAB]
  have hSq' : get_address (byteAt (setByte m A x) (64 + q)) (w / 256) =
      256 * byteAt m (64 + q) + w / 256 := by rw [e1, hSq]
  have hld' := load_value_spec (setByte m A x) q w hq0 hq1 hw0 (by rw [hSq']; omega)
    (by rw [hSq', e2]; omega)
  rw [hSq', e2, e3] at hld'
  refine ⟨_, _, _, hst, ?_, ?_, hld, hld'⟩
  · intro a _ ha
    exact setByte_other _ _ _ _ (by omega)
  · intro q' j hq0' hq1' hl hj0 hj1
    exact setByte_other _ _ _ _ (hAt q' j hq0' hq1' hl hj0 hj1)

/-- C19 at the store reached by `new_process(0, 1)` then `new_process(1, 1)`:
process 0 stores at its address 3 while process 1 reads its address 7. -/
theorem store_value_isolated_witness :
    ∃ m' out r, store_value (setByte (setByte (setByte (setByte (setByte (setByte (setByte
      (setByte initialize_mem 1 1) 64 1) 2 1) 256 2) 3 1) 65 3) 4 1) 768 4) 0 3 9 =
        some (m', out) ∧
      load_value (setByte (setByte (setByte (setByte (setByte (setByte (setByte (setByte
        initialize_mem 1 1) 64 1) 2 1) 256 2) 3 1) 65 3) 4 1) 768 4) 1 7 = some r ∧
      load_value m' 1 7 = some r := by
  obtain ⟨m', out, r, h1, _, _, h2, h3⟩ := store_value_isolated _
    (ProcReachable.new_process _ _ 1 1 []
      (ProcReachable.new_process initialize_mem _ 0 1 [] ProcReachable.init (by decide)
        (by decide) rfl)
      (by decide) (by decide) rfl)
    0 1 3 7 9 (by decide) (by decide) (by decide) (by decide) (by decide) (by decide)
    (by decide) (by decide) (by decide) (by decide) (by decide) (by decide) (by decide)
  exact ⟨m', out, r, h1, h2, h3⟩

theorem Leaked_new_process (m m' : Mem) (p n g : Int) (out : List Msg) (hI : TablesInv m)
    (hg0 : 1 ≤ g) (hg1 : g ≤ 63) (hL : Leaked m g) (hp0 : 0 ≤ p) (hp1 : p ≤ 191)
    (h : new_process m p n = some (m', out)) : Leaked m' g := by
  cases hF : freePages m with
  | nil =>
    rw [new_process_nil m p n hF] at h
    injection h with h
    have hm : m = m' := congrArg Prod.fst h
    rw [← hm]
    exact hL
  | cons f r =>
    obtain ⟨hf1, hf2, hf3, _⟩ := freePages_head m f r hF
    have hclean : ∀ i, 0 ≤ i → i < 64 → byteAt m (256 * f + i) = 0 := by
      intro i hi0 hi1
      by_contra hne
      exact (hI.clean f i hf1 hf2 hi0 hi1 hne).1 hf3
    obtain ⟨m'', out'', D, h1, hD, hdir, hbm, hso, hsf, _⟩ :=
      new_process_view m p n f r hp0 hp1 hF hclean
    rw [h1] at h
    injection h with h
    have hmm : m'' = m' := congrArg Prod.fst h
    subst hmm
    obtain ⟨hu, hd, hs⟩ := hL
    have hgf : g ≠ f := fun e => hu (e ▸ hf3)
    have hgD : ¬ D g := fun hd' => hu (hD g hd').2.2.1
    refine ⟨?_, ?_, ?_⟩
    · rw [(hbm g hg0 hg1).2 (by rintro (e | e); exact hgf e; exact hgD e)]
      exact hu
    · intro q hq0 hq1
      rw [hdir q hq0 hq1]
      by_cases e : q = p
      · rw [if_pos e]; exact fun e' => hgf e'.symm
      · rw [if_neg e]; exact hd q hq0 hq1
    · intro q i hq0 hq1 hl hi0 hi1
      rw [hdir q hq0 hq1] at hl ⊢
      by_cases e : q = p
      · rw [if_pos e]
        intro e'
        apply hgD
        rw [← e']
        exact hsf i hi0 hi1 (by rw [e']; omega)
      · rw [if_neg e] at hl ⊢
        obtain ⟨a, b, c⟩ := hI.dir_used q hq0 hq1 hl
        have hne : byteAt m (64 + q) ≠ f := fun e' => c (e' ▸ hf3)
        rw [hso _ i a b hne hi0 hi1]
        exact hs q i hq0 hq1 hl hi0 hi1

theorem Leaked_kill_process (m m' : Mem) (p g : Int) (out : List Msg) (hI : TablesInv m)
    (hg0 : 1 ≤ g) (hg1 : g ≤ 63) (hL : Leaked m g) (hp0 : 0 ≤ p) (hp1 : p ≤ 191)
    (h : kill_process m p = some (m', out)) : Leaked m' g := by
  by_cases hz : byteAt m (64 + p) = 0
  · rw [kill_process_zero m p hp0 hp1 hz] at h
    injection h with h
    have hm : m = m' := congrArg Prod.fst h
    rw [← hm]
    exact hL
  · obtain ⟨ht0, ht1, _⟩ := hI.dir_used p hp0 hp1 hz
    have hs' : ∀ i, 0 ≤ i → i < 64 → byteAt m (256 * byteAt m (64 + p) + i) ≤ 63 := by
      intro i hi0 hi1
      by_cases h0 : byteAt m (256 * byteAt m (64 + p) + i) = 0
      · omega
      · exact (hI.slot_used p i hp0 hp1 hz hi0 hi1 h0).2.1
    obtain ⟨m'', out'', k1, hdir, hbm, hsl⟩ :=
      kill_process_view m p (byteAt m (64 + p)) hp0 hp1 rfl ht0 ht1 hs'
    rw [k1] at h
    injection h with h
    have hmm : m'' = m' := congrArg Prod.fst h
    subst hmm
    obtain ⟨hu, hd, hs⟩ := hL
    refine ⟨?_, ?_, ?_⟩
    · rw [(hbm g hg0 hg1).2]
      · exact hu
      · rintro (e | ⟨i, hi0, hi1, e⟩)
        · exact hd p hp0 hp1 e.symm
        · exact hs p i hp0 hp1 hz hi0 hi1 e
    · intro q hq0 hq1
      rw [hdir q hq0 hq1]
      by_cases e : q = p
      · rw [if_pos e]; omega
      · rw [if_neg e]; exact hd q hq0 hq1
    · intro q i hq0 hq1 hl hi0 hi1
      rw [hdir q hq0 hq1] at hl ⊢
      by_cases e : q = p
      · rw [if_pos e] at hl
        exact absurd rfl hl
      · rw [if_neg e] at hl ⊢
        obtain ⟨a, b, _⟩ := hI.dir_used q hq0 hq1 hl
        rw [hsl _ i a b hi0 hi1]
        split
        · omega
        · exact hs q i hq0 hq1 hl hi0 hi1

/-- A leaked page stays leaked, hence used, along every sequence of
`new_process` and `kill_process` calls. -/
theorem Leaked_steps (m m' : Mem) (g : Int) (hg0 : 1 ≤ g) (hg1 : g ≤ 63) (hs : ProcSteps m m')
    (hI : TablesInv m) (hL : Leaked m g) : TablesInv m' ∧ Leaked m' g := by
  induction hs with
  | refl => exact ⟨hI, hL⟩
  | new_process m' m'' p n out _ hp0 hp1 h ih =>
    exact ⟨TablesInv_new_process m' m'' p n out ih.1 hp0 hp1 h,
      Leaked_new_process m' m'' p n g out ih.1 hg0 hg1 ih.2 hp0 hp1 h⟩
  | kill_process m' m'' p out _ hp0 hp1 h ih =>
    exact ⟨TablesInv_kill_process m' m'' p out ih.1 hp0 hp1 h,
      Leaked_kill_process m' m'' p g out ih.1 hg0 hg1 ih.2 hp0 hp1 h⟩

/-- C20: from the fresh store, for `p` in `0 .. 191` and `n, k ≥ 0` with
`n + k + 2 ≤ 63`, after `new_process(p, n)`, `new_process(p, k)` and
`kill_process(p)` (all three succeed silently): `mem[64 + p] = 0`; the pages
`n + 2 .. n + k + 2` are free; the pages `1 .. n + 1` are still marked used
although every directory entry is 0, so that `kill_process` of any id fails
and changes nothing; and these pages stay used in every store reached by later
`new_process` and `kill_process` calls. -/
theorem recreate_leaks (p : Int) (n k : Nat) (hp0 : 0 ≤ p) (hp1 : p ≤ 191)
    (hnk : n + k + 2 ≤ 63) :
    ∃ m1 m2 m3, new_process initialize_mem p n = some (m1, []) ∧
      new_process m1 p k = some (m2, []) ∧ kill_process m2 p = some (m3, []) ∧
      byteAt m3 (64 + p) = 0 ∧
      (∀ g, (n : Int) + 2 ≤ g → g ≤ n + k + 2 → byteAt m3 g = 0) ∧
      (∀ g, 1 ≤ g → g ≤ (n : Int) + 1 → byteAt m3 g ≠ 0) ∧
      (∀ q, 0 ≤ q → q ≤ 191 →
        byteAt m3 (64 + q) = 0 ∧ kill_process m3 q = some (m3, [Msg.failed_kill q])) ∧
      (∀ m', ProcSteps m3 m' → ∀ g, 1 ≤ g → g ≤ (n : Int) + 1 → byteAt m' g ≠ 0) := by
  -- first creation: table 1, data pages 2 .. n + 1
  obtain ⟨m1, a1, a2, _, a4, a5, a6⟩ := new_process_fresh p n hp0 hp1
  simp only [Int.toNat_ofNat] at a1 a2 a5 a6
  rw [if_pos (by omega)] at a1
  have hF1 : freePages m1 = ((n : Int) + 2) :: pageRange (61 - n) ((n : Int) + 3) := by
    have e1 : 62 - n = (61 - n) + 1 := by omega
    have e2 : (2 : Int) + n = n + 2 := by omega
    have e3 : (n : Int) + 2 + 1 = n + 3 := by omega
    rw [a2, pageRange_drop 62 2 n (by omega), e1, e2]
    simp only [pageRange, e3]
  have hclean1 : ∀ i, 0 ≤ i → i < 64 → byteAt m1 (256 * ((n : Int) + 2) + i) = 0 := by
    intro i hi0 hi1
    unfold byteAt
    rw [a6 _ (by omega) (by omega) (fun j _ _ => ⟨by omega, by omega⟩)]
    exact byteAt_initialize_mem _ (by omega)
  -- second creation: table n + 2, data pages n + 3 .. n + k + 2
  obtain ⟨m2, b1, _, b3, _, b5, b6⟩ := new_process_cons m1 p k ((n : Int) + 2)
    (pageRange (61 - n) ((n : Int) + 3)) hp0 hp1 hF1
  have hsl := new_process_slots m1 m2 p ((n : Int) + 2) (pageRange (61 - n) ((n : Int) + 3))
    (k : Int).toNat hp1 (by omega) hF1 hclean1 b5 b6
  simp only [Int.toNat_ofNat, pageRange_length] at b1 b5 b6 hsl
  rw [if_pos (by omega)] at b1
  have hsv : ∀ i : Int, 0 ≤ i → i < 64 →
      (i < k → byteAt m2 (256 * ((n : Int) + 2) + i) = n + 3 + i) ∧
      ((k : Int) ≤ i → byteAt m2 (256 * ((n : Int) + 2) + i) = 0) := by
    intro i hi0 hi1
    rw [hsl i hi0 hi1]
    constructor
    · intro h
      rw [if_pos ⟨by omega, by omega⟩, pageRange_getD _ _ _ (by omega)]
      omega
    · intro h
      rw [if_neg (by omega)]
  -- destruction of the second incarnation
  obtain ⟨m3, c1, c2⟩ := kill_process_spec m2 p ((n : Int) + 2) hp0 hp1 b3 (by omega) (by omega)
  have h32 : ∀ a, a ≠ 64 + p → a ≠ (n : Int) + 2 → a < 256 →
      (a < (n : Int) + 3 ∨ (n : Int) + k + 2 < a) → m3 a = m2 a := by
    intro a ha1 ha2 ha3 ha4
    apply (c2 a).2
    rintro (h | h | ⟨i, hi0, hi1, h | ⟨hne, h⟩⟩)
    · exact ha1 h
    · exact ha2 h
    · omega
    · by_cases hc : i < k
      · rw [(hsv i hi0 hi1).1 hc] at h
        omega
      · exact hne ((hsv i hi0 hi1).2 (by omega))
  have h21 : ∀ a, a ≠ 64 + p → a ≠ (n : Int) + 2 → a < 256 →
      (a < (n : Int) + 3 ∨ (n : Int) + k + 2 < a) → m2 a = m1 a := by
    intro a ha1 ha2 ha3 ha4
    apply b6 a ha1 ha2
    intro j hj1 hj2
    rw [pageRange_getD _ _ _ hj2]
    constructor <;> omega
  have h10 : ∀ a, a ≠ 64 + p → a < 256 → (a < 1 ∨ (n : Int) + 2 ≤ a) →
      m1 a = initialize_mem a := by
    intro a ha1 ha3 ha4
    apply a6 a ha1 (by omega)
    intro j hj1 hj2
    constructor <;> omega
  have hused : ∀ g, 1 ≤ g → g ≤ (n : Int) + 1 → byteAt m3 g = 1 := by
    intro g hg0 hg1
    unfold byteAt
    rw [h32 g (by omega) (by omega) (by omega) (Or.inl (by omega)),
      h21 g (by omega) (by omega) (by omega) (Or.inl (by omega))]
    by_cases e : g = 1
    · rw [e]; exact a4
    · have := (a5 (g - 2).toNat (by omega) (by omega)).2
      rw [Int.toNat_of_nonneg (by omega)] at this
      have e2 : 2 + (g - 2) = g := by omega
      rw [e2] at this
      exact this
  have hdir : ∀ q, 0 ≤ q → q ≤ 191 → byteAt m3 (64 + q) = 0 := by
    intro q hq0 hq1
    by_cases e : q = p
    · rw [e]
      exact (c2 (64 + p)).1 (Or.inl rfl)
    · unfold byteAt
      rw [h32 _ (by omega) (by omega) (by omega) (Or.inr (by omega)),
        h21 _ (by omega) (by omega) (by omega) (Or.inr (by omega)),
        h10 _ (by omega) (by omega) (Or.inr (by omega))]
      exact byteAt_initialize_mem _ (by omega)
  have hreach : ProcReachable m3 :=
    ProcReachable.kill_process m2 m3 p [] (ProcReachable.new_process m1 m2 p k []
      (ProcReachable.new_process initialize_mem m1 p n [] ProcReachable.init hp0 hp1 a1)
      hp0 hp1 b1) hp0 hp1 c1
  refine ⟨m1, m2, m3, a1, b1, c1, hdir p hp0 hp1, ?_, ?_, ?_, ?_⟩
  · intro g hg0 hg1
    apply (c2 g).1
    by_cases e : g = (n : Int) + 2
    · exact Or.inr (Or.inl e)
    · refine Or.inr (Or.inr ⟨g - (n + 3), by omega, by omega, Or.inr ?_⟩)
      rw [(hsv (g - (n + 3)) (by omega) (by omega)).1 (by omega)]
      exact ⟨by omega, by omega⟩
  · intro g hg0 hg1
    rw [hused g hg0 hg1]
    decide
  · intro q hq0 hq1
    exact ⟨hdir q hq0 hq1, kill_process_zero m3 q hq0 hq1 (hdir q hq0 hq1)⟩
  · intro m' hs g hg0 hg1
    have hL : Leaked m3 g := by
      refine ⟨by rw [hused g hg0 hg1]; decide, ?_, ?_⟩
      · intro q hq0 hq1
        rw [hdir q hq0 hq1]
        omega
      · intro q i hq0 hq1 hl
        exact absurd (hdir q hq0 hq1) hl
    exact (Leaked_steps m3 m' g hg0 (by omega) hs (TablesInv_of_reachable m3 hreach) hL).2.1

/-- C20 at `p = 0`, `n = 1`, `k = 1`: pages 1 and 2 leak, pages 3 and 4 are
free again. -/
theorem recreate_leaks_witness :
    ∃ m1 m2 m3, new_process initialize_mem 0 (1 : Nat) = some (m1, []) ∧
      new_process m1 0 (1 : Nat) = some (m2, []) ∧ kill_process m2 0 = some (m3, []) ∧
      byteAt m3 (64 + 0) = 0 ∧
      (∀ g, ((1 : Nat) : Int) + 2 ≤ g → g ≤ (1 : Nat) + (1 : Nat) + 2 → byteAt m3 g = 0) ∧
      (∀ g, 1 ≤ g → g ≤ ((1 : Nat) : Int) + 1 → byteAt m3 g ≠ 0) ∧
      (∀ q, 0 ≤ q → q ≤ 191 →
        byteAt m3 (64 + q) = 0 ∧ kill_process m3 q = some (m3, [Msg.failed_kill q])) ∧
      (∀ m', ProcSteps m3 m' → ∀ g, 1 ≤ g → g ≤ ((1 : Nat) : Int) + 1 → byteAt m' g ≠ 0) :=
  recreate_leaks 0 1 1 (by decide) (by decide) (by decide)

end Ptsim
